import Mathlib

/-!
The `interval_map` container.

A shallow embedding of the `interval_map<K,V>` class template of
`include/interval_map.h` / `include/interval_map_impl.h` (the same class is
repeated verbatim in `main.cpp`).

* `std::map<K,V>` is a list of `(key, value)` pairs in ascending key order; an
  iterator is a position in that list, `begin()` is position `0` and `end()` is
  the length of the list.
* `K` is any linearly ordered type, `V` any type with decidable equality.
* Where a test computes keys in `int`, the sums are taken with `int_add`, which wraps
  around at 32 bits.
* Every member function is a pure function on the state `interval_map K V`.
-/

set_option linter.unusedSectionVars false
set_option linter.unusedVariables false

namespace IntervalMap

variable {K V : Type} [LinearOrder K] [DecidableEq V]

/-! ## std::map primitives used by the class -/

/-- Entries have strictly increasing keys: the representation invariant of `std::map`. -/
def keys_increasing (m : List (K × V)) : Prop :=
  m.Pairwise (fun p q => p.1 < q.1)

instance (m : List (K × V)) : Decidable (keys_increasing m) := by
  unfold keys_increasing; infer_instance

/-- `m_map.upper_bound(key)`: the position of the first entry whose key is greater
than `key`, the size of the map when there is none. -/
def upper_bound : List (K × V) → K → Nat
  | [], _ => 0
  | p :: rest, key => if key < p.1 then 0 else upper_bound rest key + 1

/-- `m_map[key] = val`: overwrite the value stored at `key`, or insert a new entry
at its place in the key order. -/
def map_set : List (K × V) → K → V → List (K × V)
  | [], key, val => [(key, val)]
  | p :: rest, key, val =>
    if key < p.1 then (key, val) :: p :: rest
    else if p.1 < key then p :: map_set rest key val
    else (p.1, val) :: rest

/-- The loop `while (it != m_map.end() && it->first < keyEnd) it = m_map.erase(it);`
of `assign`, run on the entries from position `it` on. -/
def erase_loop (keyEnd : K) : List (K × V) → List (K × V)
  | [] => []
  | p :: rest => if p.1 < keyEnd then erase_loop keyEnd rest else p :: rest

/-- The `while (it != m_map.end())` loop of `canonicalize`, run on the entries from
position `it` on with the current `prevVal`. -/
def canonicalize_loop (prevVal : V) : List (K × V) → List (K × V)
  | [] => []
  | p :: rest =>
    if p.2 = prevVal then canonicalize_loop prevVal rest
    else p :: canonicalize_loop p.2 rest

/-- `interval_map::canonicalize` on the boundary map. -/
def canonicalize : List (K × V) → List (K × V)
  | [] => []
  | p :: rest => p :: canonicalize_loop p.2 rest

/-! ## The class -/

/-- The data members of `interval_map<K,V>`. -/
structure interval_map (K V : Type) where
  m_valBegin : V
  m_map : List (K × V)

/-- The value `(it == m_map.begin()) ? m_valBegin : (--it)->second` for an iterator
at position `it`. The iterator comes from `upper_bound`, so position `it - 1` holds an
entry; the `none` branch is never taken. -/
def value_before (s : interval_map K V) (it : Nat) : V :=
  if it = 0 then s.m_valBegin
  else
    match s.m_map[it - 1]? with
    | some p => p.2
    | none => s.m_valBegin

/-- The constructor `interval_map(V const& val)`. -/
def interval_map.new (val : V) : interval_map K V :=
  { m_valBegin := val, m_map := [] }

/-- `interval_map::get_map`. -/
def interval_map.get_map (s : interval_map K V) : List (K × V) := s.m_map

/-- `interval_map::get_begin_value`. -/
def interval_map.get_begin_value (s : interval_map K V) : V := s.m_valBegin

/-- `interval_map::is_valid_interval`. -/
def is_valid_interval (keyBegin keyEnd : K) : Bool := decide (keyBegin < keyEnd)

/-- `interval_map::operator[]`. -/
def interval_map.lookup (s : interval_map K V) (key : K) : V :=
  value_before s (upper_bound s.m_map key)

/-- `interval_map::assign`. -/
def interval_map.assign (s : interval_map K V) (keyBegin keyEnd : K) (val : V) :
    interval_map K V :=
  if !is_valid_interval keyBegin keyEnd then s
  else
    let valueAfter := value_before s (upper_bound s.m_map keyEnd)
    let m1 := map_set s.m_map keyBegin val
    let m2 := map_set m1 keyEnd valueAfter
    let it := upper_bound m2 keyBegin
    let m3 := m2.take it ++ erase_loop keyEnd (m2.drop it)
    { s with m_map := canonicalize m3 }

/-- `interval_map::clear`. -/
def interval_map.clear (s : interval_map K V) : interval_map K V :=
  { s with m_map := [] }

/-! ## Sequences of calls -/

/-- A mutating call on the container. -/
inductive Call (K V : Type) where
  | assign (keyBegin keyEnd : K) (val : V)
  | clear

/-- Effect of one call. -/
def interval_map.step (s : interval_map K V) : Call K V → interval_map K V
  | .assign b e v => s.assign b e v
  | .clear => s.clear

/-- Effect of a sequence of calls, first call first. -/
def interval_map.run (s : interval_map K V) (cs : List (Call K V)) : interval_map K V :=
  cs.foldl interval_map.step s

/-- Effect of a sequence of `assign` calls `(keyBegin, keyEnd, val)`, first call first. -/
def interval_map.run_assigns (s : interval_map K V) (cs : List (K × K × V)) :
    interval_map K V :=
  cs.foldl (fun t c => t.assign c.1 c.2.1 c.2.2) s

/-! ## Auxiliary functions for the proofs -/

/-- The value in force at `key` when the entries of `m` are read from the left,
starting from the value `d`. -/
def lookup_from (d : V) : List (K × V) → K → V
  | [], _ => d
  | p :: rest, key => if key < p.1 then d else lookup_from p.2 rest key

/-- The value of the last entry of `m`, `d` when `m` is empty. -/
def last_val (d : V) : List (K × V) → V
  | [] => d
  | p :: rest => last_val p.2 rest

/-- The boundary map of `assign` just before `canonicalize()` is called. -/
def assign_raw (m : List (K × V)) (keyBegin keyEnd : K) (valueAfter val : V) :
    List (K × V) :=
  let m2 := map_set (map_set m keyBegin val) keyEnd valueAfter
  m2.take (upper_bound m2 keyBegin) ++ erase_loop keyEnd (m2.drop (upper_bound m2 keyBegin))

/-- No two adjacent entries hold equal values. -/
def no_adjacent_equal (m : List (K × V)) : Prop :=
  m.Chain' (fun p q => p.2 ≠ q.2)

instance (m : List (K × V)) : Decidable (no_adjacent_equal m) := by
  unfold no_adjacent_equal; infer_instance

/-- Addition on the C++ type `int`: 32 bits, two's complement, wrapping around on
overflow. -/
def int_add (a b : Int) : Int :=
  (a + b + 2147483648) % 4294967296 - 2147483648

/-- The loop of `IntervalMapTester::test_memory_efficiency` with `NUM_OPERATIONS = n`
(an `int`, so `n <= 2147483647`): starting from `interval_map<int,char> imap('A')`, for
`i = 0 .. n-1` in order the calls `imap.assign(i, i + 2, 'B')` and
`imap.assign(i + 1, i + 3, 'B')`, the sums computed in `int`. -/
def test_memory_efficiency_loop (n : Nat) : interval_map Int Char :=
  (List.range n).foldl
    (fun (imap : interval_map Int Char) (i : Nat) =>
      (imap.assign (i : Int) (int_add (i : Int) 2) 'B').assign (int_add (i : Int) 1)
        (int_add (i : Int) 3) 'B')
    (interval_map.new 'A')

/-! ## Lemmas on the primitives -/

theorem upper_bound_le_length (m : List (K × V)) (k : K) :
    upper_bound m k ≤ m.length := by
  induction m with
  | nil => simp [upper_bound]
  | cons p rest ih =>
    by_cases h : k < p.1
    · simp [upper_bound, h]
    · simp [upper_bound, h, ih]

theorem value_before_upper_bound (d : V) (m : List (K × V)) (k : K) :
    value_before ⟨d, m⟩ (upper_bound m k) = lookup_from d m k := by
  induction m generalizing d with
  | nil => simp [upper_bound, value_before, lookup_from]
  | cons p rest ih =>
    by_cases h : k < p.1
    · simp [upper_bound, value_before, lookup_from, h]
    · have hle := upper_bound_le_length rest k
      rw [lookup_from, if_neg h, ← ih p.2]
      simp only [upper_bound, if_neg h, value_before]
      by_cases h0 : upper_bound rest k = 0
      · simp [h0]
      · obtain ⟨n, hn⟩ := Nat.exists_eq_succ_of_ne_zero h0
        have hlt : n < rest.length := by omega
        simp [hn, List.getElem?_eq_getElem hlt]

theorem lookup_eq (s : interval_map K V) (k : K) :
    s.lookup k = lookup_from s.m_valBegin s.m_map k := by
  cases s with
  | mk d m => exact value_before_upper_bound d m k

/-! ## The boundary map before canonicalization -/

theorem filter_lt_self (b : K) (m : List (K × V)) (h : ∀ p ∈ m, p.1 < b) :
    m.filter (fun p => decide (p.1 < b)) = m := by
  rw [List.filter_eq_self]
  intro p hp
  simpa using h p hp

theorem filter_lt_nil (b : K) (m : List (K × V)) (h : ∀ p ∈ m, ¬ p.1 < b) :
    m.filter (fun p => decide (p.1 < b)) = [] := by
  rw [List.filter_eq_nil_iff]
  intro p hp
  simpa using h p hp

theorem filter_gt_self (e : K) (m : List (K × V)) (h : ∀ p ∈ m, e < p.1) :
    m.filter (fun p => decide (e < p.1)) = m := by
  rw [List.filter_eq_self]
  intro p hp
  simpa using h p hp

theorem filter_gt_nil (e : K) (m : List (K × V)) (h : ∀ p ∈ m, ¬ e < p.1) :
    m.filter (fun p => decide (e < p.1)) = [] := by
  rw [List.filter_eq_nil_iff]
  intro p hp
  simpa using h p hp

theorem erase_loop_map_set (e : K) (va : V) (m : List (K × V)) (h : keys_increasing m) :
    erase_loop e (map_set m e va) = (e, va) :: m.filter (fun p => decide (e < p.1)) := by
  induction m with
  | nil => simp [map_set, erase_loop]
  | cons p rest ih =>
    have hs := List.pairwise_cons.mp h
    by_cases h1 : e < p.1
    · have hall : ∀ q ∈ p :: rest, e < q.1 := by
        intro q hq
        rcases List.mem_cons.mp hq with rfl | hq
        · exact h1
        · exact lt_trans h1 (hs.1 q hq)
      rw [filter_gt_self e (p :: rest) hall]
      simp [map_set, h1, erase_loop]
    · by_cases h2 : p.1 < e
      · simp [map_set, h1, h2, erase_loop, ih hs.2]
      · have he : p.1 = e := le_antisymm (not_lt.mp h1) (not_lt.mp h2)
        have hall : ∀ q ∈ rest, e < q.1 := fun q hq => he ▸ hs.1 q hq
        simp [map_set, h1, h2, erase_loop, filter_gt_self e rest hall, he]

theorem upper_bound_eq_zero (b : K) (m : List (K × V)) (h : ∀ p ∈ m, b < p.1) :
    upper_bound m b = 0 := by
  cases m with
  | nil => rfl
  | cons p rest => simp [upper_bound, h p (List.mem_cons_self _ _)]

theorem mem_map_set (m : List (K × V)) (k : K) (v : V) (q : K × V)
    (hq : q ∈ map_set m k v) : q = (k, v) ∨ q ∈ m ∨ q.1 = k := by
  induction m with
  | nil => simp [map_set] at hq; exact Or.inl hq
  | cons p rest ih =>
    by_cases h1 : k < p.1
    · simp only [map_set, h1, if_true, List.mem_cons] at hq
      rcases hq with h | h | h
      · exact Or.inl h
      · exact Or.inr (Or.inl (h ▸ List.mem_cons_self _ _))
      · exact Or.inr (Or.inl (List.mem_cons_of_mem _ h))
    · by_cases h2 : p.1 < k
      · simp only [map_set, h1, h2, if_true, if_false, List.mem_cons] at hq
        rcases hq with h | h
        · exact Or.inr (Or.inl (h ▸ List.mem_cons_self _ _))
        · rcases ih h with h | h | h
          · exact Or.inl h
          · exact Or.inr (Or.inl (List.mem_cons_of_mem _ h))
          · exact Or.inr (Or.inr h)
      · have he : p.1 = k := le_antisymm (not_lt.mp h1) (not_lt.mp h2)
        simp only [map_set, h1, h2, if_false, List.mem_cons] at hq
        rcases hq with h | h
        · exact Or.inl (by rw [h, he])
        · exact Or.inr (Or.inl (List.mem_cons_of_mem _ h))

theorem assign_raw_of_le (m : List (K × V)) (b e : K) (va v : V)
    (h : keys_increasing m) (hbe : b < e) (hall : ∀ p ∈ m, b ≤ p.1) :
    assign_raw m b e va v = (b, v) :: (e, va) :: m.filter (fun p => decide (e < p.1)) := by
  obtain ⟨m', hm', hinc, hgt, hfil⟩ : ∃ m' : List (K × V), map_set m b v = (b, v) :: m' ∧
      keys_increasing m' ∧ (∀ q ∈ m', b < q.1) ∧
      m'.filter (fun p => decide (e < p.1)) = m.filter (fun p => decide (e < p.1)) := by
    cases m with
    | nil => exact ⟨[], by simp [map_set], List.Pairwise.nil, by simp, rfl⟩
    | cons p rest =>
      have hs := List.pairwise_cons.mp h
      by_cases h1 : b < p.1
      · refine ⟨p :: rest, by simp [map_set, h1], h, ?_, rfl⟩
        intro q hq
        rcases List.mem_cons.mp hq with rfl | hq
        · exact h1
        · exact lt_trans h1 (hs.1 q hq)
      · have he : p.1 = b := le_antisymm (not_lt.mp h1) (hall p (List.mem_cons_self _ _))
        have h2 : ¬ p.1 < b := by rw [he]; exact lt_irrefl _
        refine ⟨rest, by simp [map_set, h1, h2, he], hs.2, fun q hq => he ▸ hs.1 q hq, ?_⟩
        have : ¬ e < p.1 := by rw [he]; exact not_lt.mpr hbe.le
        simp [List.filter_cons, this]
  have hne : ¬ e < b := not_lt.mpr hbe.le
  have hub : upper_bound (map_set m' e va) b = 0 := by
    apply upper_bound_eq_zero
    intro q hq
    rcases mem_map_set m' e va q hq with h | h | h
    · rw [h]; exact hbe
    · exact hgt q h
    · rw [h]; exact hbe
  unfold assign_raw
  simp only [hm', map_set, hne, hbe, if_true, if_false, upper_bound, lt_irrefl, hub]
  simp [erase_loop_map_set e va m' hinc, hfil]

theorem assign_raw_eq (m : List (K × V)) (b e : K) (va v : V)
    (h : keys_increasing m) (hbe : b < e) :
    assign_raw m b e va v =
      m.filter (fun p => decide (p.1 < b)) ++
        (b, v) :: (e, va) :: m.filter (fun p => decide (e < p.1)) := by
  induction m with
  | nil => simpa using assign_raw_of_le [] b e va v h hbe (by simp)
  | cons p rest ih =>
    have hs := List.pairwise_cons.mp h
    by_cases h1 : p.1 < b
    · have h2 : ¬ b < p.1 := not_lt.mpr h1.le
      have h3 : p.1 < e := lt_trans h1 hbe
      have h4 : ¬ e < p.1 := not_lt.mpr h3.le
      have ih' := ih hs.2
      unfold assign_raw at ih' ⊢
      simp only [map_set, h1, h2, h3, h4, if_true, if_false, upper_bound, List.take_succ_cons,
        List.drop_succ_cons, List.cons_append]
      rw [ih']
      simp [List.filter_cons, h1, h4]
    · have hall : ∀ q ∈ p :: rest, b ≤ q.1 := by
        intro q hq
        rcases List.mem_cons.mp hq with rfl | hq
        · exact not_lt.mp h1
        · exact le_trans (not_lt.mp h1) (hs.1 q hq).le
      rw [assign_raw_of_le (p :: rest) b e va v h hbe hall,
        filter_lt_nil b (p :: rest) (fun q hq => not_lt.mpr (hall q hq))]
      rfl

theorem assign_eq (s : interval_map K V) (b e : K) (v : V)
    (h : keys_increasing s.m_map) (hbe : b < e) :
    s.assign b e v =
      { m_valBegin := s.m_valBegin,
        m_map := canonicalize (s.m_map.filter (fun p => decide (p.1 < b)) ++
          (b, v) :: (e, s.lookup e) :: s.m_map.filter (fun p => decide (e < p.1))) } := by
  have := assign_raw_eq s.m_map b e (s.lookup e) v h hbe
  unfold assign_raw at this
  simp only [interval_map.assign, is_valid_interval, hbe, decide_True, Bool.not_true,
    Bool.false_eq_true, if_false]
  rw [← this]
  rfl

theorem assign_invalid (s : interval_map K V) (b e : K) (v : V) (hbe : ¬ b < e) :
    s.assign b e v = s := by
  simp [interval_map.assign, is_valid_interval, hbe]

/-! ## Lookup on lists -/

theorem lookup_from_of_gt (d : V) (m : List (K × V)) (k : K) (h : ∀ p ∈ m, k < p.1) :
    lookup_from d m k = d := by
  cases m with
  | nil => rfl
  | cons p rest => simp [lookup_from, h p (List.mem_cons_self _ _)]

theorem lookup_from_append_gt (d : V) (A B : List (K × V)) (k : K)
    (h : ∀ p ∈ B, k < p.1) : lookup_from d (A ++ B) k = lookup_from d A k := by
  induction A generalizing d with
  | nil => simpa [lookup_from] using lookup_from_of_gt d B k h
  | cons p rest ih => simp [lookup_from, ih]

theorem lookup_from_append_le (d : V) (A B : List (K × V)) (k : K)
    (h : ∀ p ∈ A, p.1 ≤ k) :
    lookup_from d (A ++ B) k = lookup_from (last_val d A) B k := by
  induction A generalizing d with
  | nil => rfl
  | cons p rest ih =>
    have h1 : ¬ k < p.1 := not_lt.mpr (h p (List.mem_cons_self _ _))
    simp only [List.cons_append, lookup_from, h1, if_false, last_val]
    exact ih p.2 (fun q hq => h q (List.mem_cons_of_mem _ hq))

theorem last_val_append_cons (d : V) (A B : List (K × V)) (p : K × V) :
    last_val d (A ++ p :: B) = last_val p.2 B := by
  induction A generalizing d with
  | nil => rfl
  | cons q rest ih => simpa [last_val] using ih q.2

theorem filter_lt_append (b : K) (m : List (K × V)) (h : keys_increasing m) :
    m.filter (fun p => decide (p.1 < b)) ++ m.filter (fun p => decide (b ≤ p.1)) = m := by
  induction m with
  | nil => rfl
  | cons p rest ih =>
    have hs := List.pairwise_cons.mp h
    by_cases h1 : p.1 < b
    · have h2 : ¬ b ≤ p.1 := not_le.mpr h1
      simp only [List.filter_cons, h1, h2, decide_True, decide_False, if_true,
        List.cons_append, Bool.false_eq_true, if_false]
      rw [ih hs.2]
    · have h2 : b ≤ p.1 := not_lt.mp h1
      have hall : ∀ q ∈ rest, ¬ q.1 < b :=
        fun q hq => not_lt.mpr (le_trans h2 (hs.1 q hq).le)
      have hall' : ∀ q ∈ rest, b ≤ q.1 := fun q hq => not_lt.mp (hall q hq)
      have e1 : rest.filter (fun p => decide (p.1 < b)) = [] := filter_lt_nil b rest hall
      have e2 : rest.filter (fun p => decide (b ≤ p.1)) = rest := by
        rw [List.filter_eq_self]
        intro q hq
        simpa using hall' q hq
      simp [List.filter_cons, h1, h2, e1, e2]

theorem filter_le_append (e : K) (m : List (K × V)) (h : keys_increasing m) :
    m.filter (fun p => decide (p.1 ≤ e)) ++ m.filter (fun p => decide (e < p.1)) = m := by
  induction m with
  | nil => rfl
  | cons p rest ih =>
    have hs := List.pairwise_cons.mp h
    by_cases h1 : p.1 ≤ e
    · have h2 : ¬ e < p.1 := not_lt.mpr h1
      simp only [List.filter_cons, h1, h2, decide_True, decide_False, if_true,
        List.cons_append, Bool.false_eq_true, if_false]
      rw [ih hs.2]
    · have h2 : e < p.1 := not_le.mp h1
      have hall : ∀ q ∈ rest, e < q.1 := fun q hq => lt_trans h2 (hs.1 q hq)
      have e1 : rest.filter (fun p => decide (p.1 ≤ e)) = [] := by
        rw [List.filter_eq_nil_iff]
        intro q hq
        simpa using hall q hq
      simp [List.filter_cons, h1, h2, e1, filter_gt_self e rest hall]

theorem mem_filter_lt {b : K} {m : List (K × V)} {q : K × V}
    (hq : q ∈ m.filter (fun p => decide (p.1 < b))) : q ∈ m ∧ q.1 < b := by
  simpa [List.mem_filter] using hq

theorem mem_filter_gt {e : K} {m : List (K × V)} {q : K × V}
    (hq : q ∈ m.filter (fun p => decide (e < p.1))) : q ∈ m ∧ e < q.1 := by
  simpa [List.mem_filter] using hq

theorem mem_filter_le {e : K} {m : List (K × V)} {q : K × V}
    (hq : q ∈ m.filter (fun p => decide (p.1 ≤ e))) : q ∈ m ∧ q.1 ≤ e := by
  simpa [List.mem_filter] using hq

theorem mem_filter_ge {b : K} {m : List (K × V)} {q : K × V}
    (hq : q ∈ m.filter (fun p => decide (b ≤ p.1))) : q ∈ m ∧ b ≤ q.1 := by
  simpa [List.mem_filter] using hq

/-- The value in force at `e` is the value of the last entry with key at most `e`. -/
theorem lookup_from_eq_last_val (d : V) (m : List (K × V)) (e : K) (h : keys_increasing m) :
    lookup_from d m e = last_val d (m.filter (fun p => decide (p.1 ≤ e))) := by
  have h1 := filter_le_append e m h
  have h2 := lookup_from_append_le d (m.filter (fun p => decide (p.1 ≤ e)))
    (m.filter (fun p => decide (e < p.1))) e (fun q hq => (mem_filter_le hq).2)
  rw [h1] at h2
  rw [h2]
  exact lookup_from_of_gt _ _ e (fun q hq => (mem_filter_gt hq).2)

/-! ## Canonicalization on lists -/

theorem canonicalize_loop_sublist (pv : V) (m : List (K × V)) :
    (canonicalize_loop pv m).Sublist m := by
  induction m generalizing pv with
  | nil => exact List.Sublist.slnil
  | cons p rest ih =>
    by_cases h : p.2 = pv
    · simpa [canonicalize_loop, h] using (ih pv).cons p
    · simpa [canonicalize_loop, h] using (ih p.2).cons₂ p

theorem canonicalize_sublist (m : List (K × V)) : (canonicalize m).Sublist m := by
  cases m with
  | nil => exact List.Sublist.slnil
  | cons p rest => exact (canonicalize_loop_sublist p.2 rest).cons₂ p

theorem keys_increasing_canonicalize (m : List (K × V)) (h : keys_increasing m) :
    keys_increasing (canonicalize m) :=
  List.Pairwise.sublist (canonicalize_sublist m) h

theorem lookup_from_canonicalize_loop (pv : V) (m : List (K × V)) (k : K)
    (h : keys_increasing m) :
    lookup_from pv (canonicalize_loop pv m) k = lookup_from pv m k := by
  induction m generalizing pv with
  | nil => rfl
  | cons p rest ih =>
    have hs := List.pairwise_cons.mp h
    by_cases h1 : p.2 = pv
    · simp only [canonicalize_loop, h1, if_true, lookup_from]
      rw [ih pv hs.2]
      by_cases h2 : k < p.1
      · rw [if_pos h2]
        exact lookup_from_of_gt pv rest k (fun q hq => lt_trans h2 (hs.1 q hq))
      · rw [if_neg h2]
    · simp only [canonicalize_loop, h1, if_false, lookup_from]
      rw [ih p.2 hs.2]

theorem lookup_from_canonicalize (d : V) (m : List (K × V)) (k : K)
    (h : keys_increasing m) :
    lookup_from d (canonicalize m) k = lookup_from d m k := by
  cases m with
  | nil => rfl
  | cons p rest =>
    have hs := List.pairwise_cons.mp h
    simp only [canonicalize, lookup_from]
    rw [lookup_from_canonicalize_loop p.2 rest k hs.2]

theorem keys_increasing_raw (m : List (K × V)) (b e : K) (va v : V)
    (h : keys_increasing m) (hbe : b < e) :
    keys_increasing (m.filter (fun p => decide (p.1 < b)) ++
        (b, v) :: (e, va) :: m.filter (fun p => decide (e < p.1))) := by
  unfold keys_increasing at h ⊢
  rw [List.pairwise_append]
  refine ⟨List.Pairwise.sublist (List.filter_sublist _) h, ?_, ?_⟩
  · rw [List.pairwise_cons]
    refine ⟨?_, ?_⟩
    · intro q hq
      rcases List.mem_cons.mp hq with rfl | hq
      · exact hbe
      · exact lt_trans hbe (mem_filter_gt hq).2
    · rw [List.pairwise_cons]
      exact ⟨fun q hq => (mem_filter_gt hq).2, List.Pairwise.sublist (List.filter_sublist _) h⟩
  · intro p hp q hq
    have hpb := (mem_filter_lt hp).2
    rcases List.mem_cons.mp hq with rfl | hq
    · exact hpb
    · rcases List.mem_cons.mp hq with rfl | hq
      · exact lt_trans hpb hbe
      · exact lt_trans hpb (lt_trans hbe (mem_filter_gt hq).2)

theorem keys_increasing_assign (s : interval_map K V) (b e : K) (v : V)
    (h : keys_increasing s.m_map) : keys_increasing (s.assign b e v).m_map := by
  by_cases hbe : b < e
  · rw [assign_eq s b e v h hbe]
    exact keys_increasing_canonicalize _ (keys_increasing_raw _ b e _ v h hbe)
  · rw [assign_invalid s b e v hbe]
    exact h

theorem lookup_assign (s : interval_map K V) (b e : K) (v : V) (k : K)
    (h : keys_increasing s.m_map) (hbe : b < e) :
    (s.assign b e v).lookup k =
      lookup_from s.m_valBegin (s.m_map.filter (fun p => decide (p.1 < b)) ++
          (b, v) :: (e, s.lookup e) :: s.m_map.filter (fun p => decide (e < p.1))) k := by
  rw [assign_eq s b e v h hbe, lookup_eq]
  exact lookup_from_canonicalize _ _ k (keys_increasing_raw _ b e _ v h hbe)

/-! ## Contract of `assign` and `operator[]` -/

/-- C1. Range assignment correctness: in a state whose boundary map has strictly
increasing keys, after `assign(b, e, v)` with `b < e` the lookup `operator[]`
returns `v` at every key `k` with `b <= k < e`. -/
theorem assign_sets_range (s : interval_map K V) (b e : K) (v : V) (k : K)
    (hs : keys_increasing s.m_map) (hbe : b < e) (hbk : b ≤ k) (hke : k < e) :
    (s.assign b e v).lookup k = v := by
  rw [lookup_assign s b e v k hs hbe]
  have hsplit : s.m_map.filter (fun p => decide (p.1 < b)) ++
      (b, v) :: (e, s.lookup e) :: s.m_map.filter (fun p => decide (e < p.1)) =
      (s.m_map.filter (fun p => decide (p.1 < b)) ++ [(b, v)]) ++
      ((e, s.lookup e) :: s.m_map.filter (fun p => decide (e < p.1))) := by simp
  rw [hsplit, lookup_from_append_gt, ← List.append_nil (_ ++ [(b, v)]), lookup_from_append_le]
  · simp [lookup_from, last_val_append_cons, last_val]
  · intro q hq
    rcases List.mem_append.mp hq with hq | hq
    · exact le_trans (mem_filter_lt hq).2.le hbk
    · simp at hq; rw [hq]; exact hbk
  · intro q hq
    rcases List.mem_cons.mp hq with rfl | hq
    · exact hke
    · exact lt_trans hke (mem_filter_gt hq).2

/-- Witness for C1 on `interval_map<int,char>`: after `assign(1,5,'B')`, `assign(3,7,'C')`
the key `4` reads `'C'`. -/
theorem assign_sets_range_witness :
    (((interval_map.new 'A' : interval_map Int Char).assign 1 5 'B').assign 3 7 'C').lookup 4
      = 'C' :=
  assign_sets_range ((interval_map.new 'A' : interval_map Int Char).assign 1 5 'B') 3 7 'C' 4
    (by decide) (by decide) (by decide) (by decide)

theorem lookup_assign_outside (s : interval_map K V) (b e : K) (v : V) (k : K)
    (hs : keys_increasing s.m_map) (hk : k < b ∨ e ≤ k) :
    (s.assign b e v).lookup k = s.lookup k := by
  by_cases hbe : b < e
  · rw [lookup_assign s b e v k hs hbe]
    rcases hk with hk | hk
    · rw [lookup_from_append_gt]
      · rw [lookup_eq]
        conv_rhs => rw [← filter_lt_append b s.m_map hs]
        rw [lookup_from_append_gt]
        intro q hq
        exact lt_of_lt_of_le hk (mem_filter_ge hq).2
      · intro q hq
        rcases List.mem_cons.mp hq with rfl | hq
        · exact hk
        · rcases List.mem_cons.mp hq with rfl | hq
          · exact lt_trans hk hbe
          · exact lt_trans hk (lt_trans hbe (mem_filter_gt hq).2)
    · have hsplit : s.m_map.filter (fun p => decide (p.1 < b)) ++
          (b, v) :: (e, s.lookup e) :: s.m_map.filter (fun p => decide (e < p.1)) =
          (s.m_map.filter (fun p => decide (p.1 < b)) ++ [(b, v), (e, s.lookup e)]) ++
          s.m_map.filter (fun p => decide (e < p.1)) := by simp
      rw [hsplit, lookup_from_append_le]
      · have hl : last_val s.m_valBegin
            (s.m_map.filter (fun p => decide (p.1 < b)) ++ [(b, v), (e, s.lookup e)]) =
            s.lookup e := by
          rw [last_val_append_cons]; rfl
        rw [hl]
        conv_rhs => rw [lookup_eq, ← filter_le_append e s.m_map hs]
        rw [lookup_from_append_le, lookup_eq, lookup_from_eq_last_val _ _ e hs]
        intro q hq
        exact le_trans (mem_filter_le hq).2 hk
      · intro q hq
        rcases List.mem_append.mp hq with hq | hq
        · exact le_trans (le_trans (mem_filter_lt hq).2.le hbe.le) hk
        · simp at hq
          rcases hq with rfl | rfl
          · exact le_trans hbe.le hk
          · exact hk
  · rw [assign_invalid s b e v hbe]

/-- C2. Non-interference: in a state whose boundary map has strictly increasing keys,
for all `b`, `e`, `v` and every key `k` outside `[b, e)` (`k < b` or `e <= k`,
`k = e` included), `operator[](k)` after `assign(b, e, v)` equals `operator[](k)`
before the call. -/
theorem assign_non_interference (s : interval_map K V) (b e : K) (v : V) (k : K)
    (hs : keys_increasing s.m_map) (hk : k < b ∨ e ≤ k) :
    (s.assign b e v).lookup k = s.lookup k :=
  lookup_assign_outside s b e v k hs hk

/-- Witness for C2 on `interval_map<int,char>`: after `assign(1,5,'B')`, the call
`assign(3,7,'C')` leaves the value at the end key `7` as it was. -/
theorem assign_non_interference_witness :
    (((interval_map.new 'A' : interval_map Int Char).assign 1 5 'B').assign 3 7 'C').lookup 7
      = ((interval_map.new 'A' : interval_map Int Char).assign 1 5 'B').lookup 7 :=
  assign_non_interference ((interval_map.new 'A' : interval_map Int Char).assign 1 5 'B')
    3 7 'C' 7 (by decide) (Or.inr (by decide))

/-! ## Canonical form -/

theorem chain_canonicalize_loop (pv : V) (m : List (K × V)) (a : K × V) (ha : a.2 = pv) :
    List.Chain (fun p q => p.2 ≠ q.2) a (canonicalize_loop pv m) := by
  induction m generalizing pv a with
  | nil => exact List.Chain.nil
  | cons p rest ih =>
    by_cases h : p.2 = pv
    · simpa [canonicalize_loop, h] using ih pv a ha
    · simp only [canonicalize_loop, h, if_false]
      exact List.Chain.cons (by rw [ha]; exact fun hc => h hc.symm) (ih p.2 p rfl)

theorem no_adjacent_equal_canonicalize (m : List (K × V)) :
    no_adjacent_equal (canonicalize m) := by
  cases m with
  | nil => exact List.chain'_nil
  | cons p rest => exact chain_canonicalize_loop p.2 rest p rfl

theorem no_adjacent_equal_assign (s : interval_map K V) (b e : K) (v : V)
    (h : no_adjacent_equal s.m_map) : no_adjacent_equal (s.assign b e v).m_map := by
  unfold interval_map.assign
  split
  · exact h
  · exact no_adjacent_equal_canonicalize _

theorem no_adjacent_equal_run (cs : List (Call K V)) (s : interval_map K V)
    (h : no_adjacent_equal s.m_map) : no_adjacent_equal (s.run cs).m_map := by
  induction cs generalizing s with
  | nil => exact h
  | cons c cs ih =>
    simp only [interval_map.run, List.foldl_cons]
    apply ih
    cases c with
    | assign b e v => exact no_adjacent_equal_assign s b e v h
    | clear => exact List.chain'_nil

/-- C3. Canonical form (a) is a reachable-state invariant: in every state reached from
a newly constructed container by any sequence of `assign` and `clear` calls, no two
adjacent entries of the boundary map (in ascending key order) have equal values. -/
theorem canonical_no_adjacent_equal (v0 : V) (cs : List (Call K V)) :
    no_adjacent_equal ((interval_map.new v0 : interval_map K V).run cs).get_map :=
  no_adjacent_equal_run cs _ List.chain'_nil

theorem head?_canonicalize (m : List (K × V)) : (canonicalize m).head? = m.head? := by
  cases m <;> rfl

theorem head?_filter_lt (b : K) (m : List (K × V)) (h : keys_increasing m)
    (hne : m.filter (fun p => decide (p.1 < b)) ≠ []) :
    (m.filter (fun p => decide (p.1 < b))).head? = m.head? := by
  conv_rhs => rw [← filter_lt_append b m h]
  cases hL : m.filter (fun p => decide (p.1 < b)) with
  | nil => exact absurd hL hne
  | cons q rest => rfl

theorem head?_assign (s : interval_map K V) (b e : K) (v : V)
    (h : keys_increasing s.m_map) (hbe : b < e) :
    (s.assign b e v).m_map.head? = some (b, v) ∨
      ((s.assign b e v).m_map.head? = s.m_map.head? ∧ s.m_map ≠ []) := by
  rw [assign_eq s b e v h hbe]
  simp only [head?_canonicalize]
  cases hL : s.m_map.filter (fun p => decide (p.1 < b)) with
  | nil => exact Or.inl rfl
  | cons q rest =>
    right
    have hne : s.m_map.filter (fun p => decide (p.1 < b)) ≠ [] := by simp [hL]
    have := head?_filter_lt b s.m_map h hne
    rw [hL] at this
    refine ⟨by simpa using this, ?_⟩
    intro hnil
    rw [hnil] at hL
    simp at hL

theorem first_boundary_run_assigns (cs : List (K × K × V)) :
    ∀ (s : interval_map K V) (prev : List (K × K × V)), keys_increasing s.m_map →
      (∀ p, s.m_map.head? = some p → ∃ c ∈ prev, c.1 < c.2.1 ∧ p = (c.1, c.2.2)) →
      ∀ p, (s.run_assigns cs).m_map.head? = some p →
        ∃ c ∈ prev ++ cs, c.1 < c.2.1 ∧ p = (c.1, c.2.2) := by
  induction cs with
  | nil =>
    intro s prev _ h p hp
    simpa using h p hp
  | cons c cs ih =>
    intro s prev hs h p hp
    simp only [interval_map.run_assigns, List.foldl_cons] at hp
    have hstep : ∀ q, (s.assign c.1 c.2.1 c.2.2).m_map.head? = some q →
        ∃ d ∈ prev ++ [c], d.1 < d.2.1 ∧ q = (d.1, d.2.2) := by
      intro q hq
      by_cases hbe : c.1 < c.2.1
      · rcases head?_assign s c.1 c.2.1 c.2.2 hs hbe with h1 | h1
        · rw [h1] at hq
          cases hq
          exact ⟨c, by simp, hbe, rfl⟩
        · rw [h1.1] at hq
          obtain ⟨d, hd, hd2⟩ := h q hq
          exact ⟨d, List.mem_append_left _ hd, hd2⟩
      · rw [assign_invalid s _ _ _ hbe] at hq
        obtain ⟨d, hd, hd2⟩ := h q hq
        exact ⟨d, List.mem_append_left _ hd, hd2⟩
    have := ih (s.assign c.1 c.2.1 c.2.2) (prev ++ [c])
      (keys_increasing_assign s _ _ _ hs) hstep p hp
    simpa using this

/-- C4, refuted as stated: with default `'A'`, after the single call `assign(0,10,'A')`
the boundary map is non-empty and its first boundary holds the default `'A'`. -/
theorem first_value_may_equal_default :
    ((interval_map.new 'A' : interval_map Int Char).run_assigns [(0, 10, 'A')]).get_map.head?
        = some (0, 'A') ∧
      ((interval_map.new 'A' : interval_map Int Char).run_assigns
        [(0, 10, 'A')]).get_begin_value = 'A' := by
  decide

/-- C4, amended: in every state reached from a newly constructed container with default
`V0` by any sequence of `assign` calls, if the boundary map is non-empty then its first
(smallest-key) stored boundary is `(b, v)` for some call `assign(b, e, v)` of the sequence
with `b < e`; so its value differs from `V0` unless a call with `b < e` and that begin key
assigned `V0` itself. -/
theorem first_boundary_set_by_call (v0 : V) (cs : List (K × K × V)) (p : K × V)
    (hp : ((interval_map.new v0 : interval_map K V).run_assigns cs).get_map.head? = some p) :
    (∃ c ∈ cs, c.1 < c.2.1 ∧ p = (c.1, c.2.2)) ∧
      ((∀ c ∈ cs, c.1 < c.2.1 → c.1 = p.1 → c.2.2 ≠ v0) → p.2 ≠ v0) := by
  have h := first_boundary_run_assigns cs (interval_map.new v0) [] List.Pairwise.nil
    (by simp [interval_map.new]) p hp
  simp only [List.nil_append] at h
  refine ⟨h, ?_⟩
  intro hall
  obtain ⟨c, hc, hbe, hpc⟩ := h
  rw [hpc]
  exact hall c hc hbe (by rw [hpc])

/-- Witness for the amended C4: default `'A'`, calls `assign(0,10,'B')`, `assign(3,5,'A')`;
the first boundary is `(0,'B')`, set by the only call that begins at `0`. -/
theorem first_boundary_set_by_call_witness :
    ((interval_map.new 'A' : interval_map Int Char).run_assigns
        [(0, 10, 'B'), (3, 5, 'A')]).get_map.head? = some (0, 'B') ∧
      ((0, 'B') : Int × Char).2 ≠ 'A' :=
  ⟨by decide, (first_boundary_set_by_call 'A' [((0 : Int), 10, 'B'), (3, 5, 'A')] (0, 'B')
    (by decide)).2 (by decide)⟩

/-! ## Lookup semantics -/

theorem lookup_from_greatest (d : V) (m : List (K × V)) (k : K) (p : K × V)
    (h : keys_increasing m) (hp : p ∈ m) (hpk : p.1 ≤ k)
    (hmax : ∀ q ∈ m, q.1 ≤ k → q.1 ≤ p.1) : lookup_from d m k = p.2 := by
  induction m generalizing d with
  | nil => cases hp
  | cons a rest ih =>
    have hs := List.pairwise_cons.mp h
    have hak : a.1 ≤ k := by
      rcases List.mem_cons.mp hp with rfl | hp'
      · exact hpk
      · exact le_trans (hs.1 p hp').le hpk
    simp only [lookup_from, not_lt.mpr hak, if_false]
    rcases List.mem_cons.mp hp with rfl | hp'
    · apply lookup_from_of_gt
      intro q hq
      by_contra hc
      have := hmax q (List.mem_cons_of_mem _ hq) (not_lt.mp hc)
      exact absurd (hs.1 q hq) (not_lt.mpr this)
    · exact ih a.2 hs.2 hp' (fun q hq hqk => hmax q (List.mem_cons_of_mem _ hq) hqk)

theorem lookup_from_at_key (d : V) (m : List (K × V)) (p : K × V)
    (h : keys_increasing m) (hp : p ∈ m) : lookup_from d m p.1 = p.2 :=
  lookup_from_greatest d m p.1 p h hp le_rfl (fun _ _ hq => hq)

/-- C6. Lookup semantics: in a state whose boundary map has strictly increasing keys,
`operator[](k)`, computed as `upper_bound(k)` followed by a step to the predecessor,
returns `m_valBegin` when no stored key is `<= k`, and otherwise the value stored at the
greatest stored key `<= k`; on a newly constructed container it returns the default at
every key. -/
theorem lookup_semantics (s : interval_map K V) (k : K) (hs : keys_increasing s.m_map) :
    s.lookup k = value_before s (upper_bound s.m_map k) ∧
    ((∀ p ∈ s.m_map, ¬ p.1 ≤ k) → s.lookup k = s.m_valBegin) ∧
    (∀ p ∈ s.m_map, p.1 ≤ k → (∀ q ∈ s.m_map, q.1 ≤ k → q.1 ≤ p.1) → s.lookup k = p.2) ∧
    (∀ v0 : V, (interval_map.new v0 : interval_map K V).lookup k = v0) := by
  refine ⟨rfl, ?_, ?_, ?_⟩
  · intro h
    rw [lookup_eq]
    exact lookup_from_of_gt _ _ k (fun p hp => not_le.mp (h p hp))
  · intro p hp hpk hmax
    rw [lookup_eq]
    exact lookup_from_greatest _ _ k p hs hp hpk hmax
  · intro v0
    rfl

/-- Witness for C6 on `interval_map<int,char>`: in the map `(1,'B'), (3,'C'), (7,'A')` with
default `'A'` the greatest key `<= 4` is `3`, so the lookup at `4` is `'C'`. -/
theorem lookup_semantics_witness :
    (⟨'A', [(1, 'B'), (3, 'C'), (7, 'A')]⟩ : interval_map Int Char).lookup 4 = 'C' :=
  (lookup_semantics (⟨'A', [(1, 'B'), (3, 'C'), (7, 'A')]⟩ : interval_map Int Char) 4
    (by decide)).2.2.1 (3, 'C') (by decide) (by decide) (by decide)

/-- C7. No-op on an invalid range: for `b >= e` (empty or inverted range) `assign(b, e, v)`
returns the state unchanged, boundary map and default alike, so every lookup is
unchanged. -/
theorem assign_invalid_range_noop (s : interval_map K V) (b e : K) (v : V) (hbe : e ≤ b) :
    s.assign b e v = s ∧
    (s.assign b e v).get_map = s.get_map ∧
    (s.assign b e v).get_begin_value = s.get_begin_value ∧
    ∀ k, (s.assign b e v).lookup k = s.lookup k := by
  have h := assign_invalid s b e v (not_lt.mpr hbe)
  rw [h]
  exact ⟨rfl, rfl, rfl, fun _ => rfl⟩

/-- Witness for C7 on `interval_map<int,char>`: `assign(6,3,'B')` on the map `(1,'B'), (5,'A')`. -/
theorem assign_invalid_range_noop_witness :
    (⟨'A', [(1, 'B'), (5, 'A')]⟩ : interval_map Int Char).assign 6 3 'B'
      = ⟨'A', [(1, 'B'), (5, 'A')]⟩ :=
  (assign_invalid_range_noop (⟨'A', [(1, 'B'), (5, 'A')]⟩ : interval_map Int Char) 6 3 'B'
    (by decide)).1

/-- C9. Clear resets to default: after `clear()` the boundary enumeration `get_map()` is
empty and `operator[](k)` is the default value at every key `k`. -/
theorem clear_resets (s : interval_map K V) :
    s.clear.get_map = [] ∧ ∀ k, s.clear.lookup k = s.get_begin_value :=
  ⟨rfl, fun _ => rfl⟩

/-! ## Algebra of canonicalization -/

theorem canonicalize_loop_append (pv : V) (A B : List (K × V)) :
    canonicalize_loop pv (A ++ B) =
      canonicalize_loop pv A ++ canonicalize_loop (last_val pv A) B := by
  induction A generalizing pv with
  | nil => rfl
  | cons a rest ih =>
    by_cases h : a.2 = pv
    · simp only [List.cons_append, canonicalize_loop, h, if_true, last_val]
      exact ih pv
    · simp only [List.cons_append, canonicalize_loop, h, if_false, last_val]
      exact congrArg (List.cons a) (ih a.2)

theorem last_val_canonicalize_loop (pv : V) (A : List (K × V)) :
    last_val pv (canonicalize_loop pv A) = last_val pv A := by
  induction A generalizing pv with
  | nil => rfl
  | cons a rest ih =>
    by_cases h : a.2 = pv
    · simp only [canonicalize_loop, h, if_true, last_val]
      rw [ih pv, ← h]
    · simp only [canonicalize_loop, h, if_false, last_val]
      exact ih a.2

theorem canonicalize_loop_idem (pv : V) (A : List (K × V)) :
    canonicalize_loop pv (canonicalize_loop pv A) = canonicalize_loop pv A := by
  induction A generalizing pv with
  | nil => rfl
  | cons a rest ih =>
    by_cases h : a.2 = pv
    · simp only [canonicalize_loop, h, if_true]
      exact ih pv
    · simp only [canonicalize_loop, h, if_false]
      rw [ih a.2]

theorem canonicalize_append_cons (A B : List (K × V)) (p : K × V) :
    canonicalize (A ++ p :: B) = canonicalize (A ++ [p]) ++ canonicalize_loop p.2 B := by
  cases A with
  | nil => rfl
  | cons a rest =>
    have h : rest ++ p :: B = (rest ++ [p]) ++ B := by simp
    simp only [List.cons_append, canonicalize]
    rw [h, canonicalize_loop_append, last_val_append_cons]
    rfl

theorem canonicalize_canonicalize_append (A T : List (K × V)) :
    canonicalize (canonicalize A ++ T) = canonicalize (A ++ T) := by
  cases A with
  | nil => rfl
  | cons a rest =>
    simp only [List.cons_append, canonicalize]
    rw [canonicalize_loop_append, canonicalize_loop_append, canonicalize_loop_idem,
      last_val_canonicalize_loop]

theorem mem_canonicalize_loop {pv : V} {m : List (K × V)} {q : K × V}
    (hq : q ∈ canonicalize_loop pv m) : q ∈ m :=
  (canonicalize_loop_sublist pv m).subset hq

theorem mem_canonicalize {m : List (K × V)} {q : K × V}
    (hq : q ∈ canonicalize m) : q ∈ m :=
  (canonicalize_sublist m).subset hq

theorem filter_lt_canonicalize_snoc (b : K) (v : V) (L : List (K × V))
    (hL : ∀ q ∈ L, q.1 < b) :
    (canonicalize (L ++ [(b, v)])).filter (fun p => decide (p.1 < b)) = canonicalize L := by
  cases L with
  | nil => simp [canonicalize, canonicalize_loop]
  | cons a rest =>
    have ha : a.1 < b := hL a (List.mem_cons_self _ _)
    simp only [List.cons_append, canonicalize, canonicalize_loop_append, List.filter_cons, ha,
      decide_True, if_true, List.filter_append]
    have h1 : (canonicalize_loop a.2 rest).filter (fun p => decide (p.1 < b)) =
        canonicalize_loop a.2 rest :=
      filter_lt_self b _ (fun q hq => hL q (List.mem_cons_of_mem _ (mem_canonicalize_loop hq)))
    have h2 : (canonicalize_loop (last_val a.2 rest) [(b, v)]).filter
        (fun p => decide (p.1 < b)) = [] := by
      apply filter_lt_nil
      intro q hq
      have := mem_canonicalize_loop hq
      simp at this
      rw [this]
      exact lt_irrefl b
    rw [h1, h2, List.append_nil]

/-- The entries below `b` of the boundary map after `assign(b, e, v)`. -/
theorem filter_lt_canonicalize_raw (b e : K) (v va : V) (L R : List (K × V))
    (hbe : b < e) (hL : ∀ q ∈ L, q.1 < b) (hR : ∀ q ∈ R, e < q.1) :
    (canonicalize (L ++ (b, v) :: (e, va) :: R)).filter (fun p => decide (p.1 < b)) =
      canonicalize L := by
  rw [canonicalize_append_cons, List.filter_append, filter_lt_canonicalize_snoc b v L hL]
  have h2 : (canonicalize_loop (b, v).2 ((e, va) :: R)).filter
      (fun p => decide (p.1 < b)) = [] := by
    apply filter_lt_nil
    intro q hq
    rcases List.mem_cons.mp (mem_canonicalize_loop hq) with rfl | hq
    · exact not_lt.mpr hbe.le
    · exact not_lt.mpr (lt_trans hbe (hR q hq)).le
  rw [h2, List.append_nil]

/-- The entries above `e` of the boundary map after `assign(b, e, v)`. -/
theorem filter_gt_canonicalize_raw (b e : K) (v va : V) (L R : List (K × V))
    (hbe : b < e) (hL : ∀ q ∈ L, q.1 < b) (hR : ∀ q ∈ R, e < q.1) :
    (canonicalize (L ++ (b, v) :: (e, va) :: R)).filter (fun p => decide (e < p.1)) =
      canonicalize_loop va R := by
  have h : L ++ (b, v) :: (e, va) :: R = (L ++ [(b, v)]) ++ (e, va) :: R := by simp
  rw [h, canonicalize_append_cons, List.filter_append]
  have h1 : (canonicalize (L ++ [(b, v)] ++ [(e, va)])).filter
      (fun p => decide (e < p.1)) = [] := by
    apply filter_gt_nil
    intro q hq
    have := mem_canonicalize hq
    simp only [List.mem_append, List.mem_singleton] at this
    rcases this with (hq | rfl) | rfl
    · exact not_lt.mpr (lt_trans (hL q hq) hbe).le
    · exact not_lt.mpr hbe.le
    · exact lt_irrefl _
  have h2 : (canonicalize_loop (e, va).2 R).filter (fun p => decide (e < p.1)) =
      canonicalize_loop va R :=
    filter_gt_self e _ (fun q hq => hR q (mem_canonicalize_loop hq))
  rw [h1, h2, List.nil_append]

/-- C8. Idempotence of `assign`: in a state whose boundary map has strictly increasing
keys, calling `assign(b, e, v)` twice in a row yields exactly the state (boundary map
and default) obtained by calling it once. -/
theorem assign_idempotent (s : interval_map K V) (b e : K) (v : V)
    (hs : keys_increasing s.m_map) :
    (s.assign b e v).assign b e v = s.assign b e v := by
  by_cases hbe : b < e
  · have hs1 := keys_increasing_assign s b e v hs
    have hva : (s.assign b e v).lookup e = s.lookup e :=
      lookup_assign_outside s b e v e hs (Or.inr le_rfl)
    rw [assign_eq (s.assign b e v) b e v hs1 hbe, hva]
    rw [assign_eq s b e v hs hbe]
    simp only
    rw [filter_lt_canonicalize_raw b e v _ _ _ hbe (fun q hq => (mem_filter_lt hq).2)
        (fun q hq => (mem_filter_gt hq).2),
      filter_gt_canonicalize_raw b e v _ _ _ hbe (fun q hq => (mem_filter_lt hq).2)
        (fun q hq => (mem_filter_gt hq).2)]
    congr 1
    rw [canonicalize_canonicalize_append]
    have h : ∀ R : List (K × V),
        s.m_map.filter (fun p => decide (p.1 < b)) ++ (b, v) :: (e, s.lookup e) :: R =
        (s.m_map.filter (fun p => decide (p.1 < b)) ++ [(b, v)]) ++ (e, s.lookup e) :: R := by
      intro R; simp
    rw [h, h, canonicalize_append_cons, canonicalize_append_cons _ (List.filter _ _),
      canonicalize_loop_idem]
  · rw [assign_invalid s b e v hbe, assign_invalid s b e v hbe]

/-- Witness for C8 on `interval_map<int,char>`: `assign(3,7,'C')` twice on the map
`(1,'B'), (5,'A')`. -/
theorem assign_idempotent_witness :
    (((⟨'A', [(1, 'B'), (5, 'A')]⟩ : interval_map Int Char).assign 3 7 'C').assign 3 7 'C')
      = (⟨'A', [(1, 'B'), (5, 'A')]⟩ : interval_map Int Char).assign 3 7 'C' :=
  assign_idempotent (⟨'A', [(1, 'B'), (5, 'A')]⟩ : interval_map Int Char) 3 7 'C' (by decide)

/-! ## Reachable states -/

theorem run_assigns_eq_run (s : interval_map K V) (cs : List (K × K × V)) :
    s.run_assigns cs = s.run (cs.map (fun c => Call.assign c.1 c.2.1 c.2.2)) := by
  simp only [interval_map.run_assigns, interval_map.run, List.foldl_map]
  rfl

theorem keys_increasing_run (cs : List (Call K V)) (s : interval_map K V)
    (h : keys_increasing s.m_map) : keys_increasing (s.run cs).m_map := by
  induction cs generalizing s with
  | nil => exact h
  | cons c cs ih =>
    simp only [interval_map.run, List.foldl_cons]
    apply ih
    cases c with
    | assign b e v => exact keys_increasing_assign s b e v h
    | clear => exact List.Pairwise.nil

theorem valBegin_assign (s : interval_map K V) (b e : K) (v : V) :
    (s.assign b e v).m_valBegin = s.m_valBegin := by
  unfold interval_map.assign
  split <;> rfl

theorem valBegin_run (cs : List (Call K V)) (s : interval_map K V) :
    (s.run cs).m_valBegin = s.m_valBegin := by
  induction cs generalizing s with
  | nil => rfl
  | cons c cs ih =>
    simp only [interval_map.run, List.foldl_cons]
    rw [show List.foldl interval_map.step (s.step c) cs = (s.step c).run cs from rfl, ih]
    cases c with
    | assign b e v => exact valBegin_assign s b e v
    | clear => rfl

/-! ## Size of the representation -/

theorem last_val_of_all (d : V) (A : List (K × V)) (h : ∀ q ∈ A, q.2 = d) :
    last_val d A = d := by
  induction A with
  | nil => rfl
  | cons a rest ih =>
    simp only [last_val]
    rw [h a (List.mem_cons_self _ _)]
    exact ih (fun q hq => h q (List.mem_cons_of_mem _ hq))

/-- A boundary list whose first value differs from the default and whose adjacent values
differ is no longer than any other sorted list representing the same function. -/
theorem length_le_of_same_lookup (s : List (K × V)) :
    ∀ (d : V) (m' : List (K × V)), keys_increasing s → keys_increasing m' →
      (∀ p, s.head? = some p → p.2 ≠ d) → no_adjacent_equal s →
      (∀ k, lookup_from d s k = lookup_from d m' k) → s.length ≤ m'.length := by
  induction s with
  | nil => intros; simp
  | cons p s' ih =>
    intro d m' hs hm' hhead hchain heq
    have hs' := List.pairwise_cons.mp hs
    have hpd : p.2 ≠ d := hhead p rfl
    have hsp : lookup_from d (p :: s') p.1 = p.2 :=
      lookup_from_at_key d _ p hs (List.mem_cons_self _ _)
    have hlow : ∀ q ∈ m', q.1 < p.1 → q.2 = d := by
      intro q hq hqp
      have := heq q.1
      rw [lookup_from_at_key d m' q hm' hq] at this
      simp only [lookup_from, hqp, if_true] at this
      exact this.symm
    have hsplit := filter_lt_append p.1 m' hm'
    have hlast : last_val d (m'.filter (fun q => decide (q.1 < p.1))) = d :=
      last_val_of_all d _ (fun q hq => hlow q (mem_filter_lt hq).1 (mem_filter_lt hq).2)
    have hG : lookup_from d (m'.filter (fun q => decide (p.1 ≤ q.1))) p.1 = p.2 := by
      have := heq p.1
      rw [hsp, ← hsplit, lookup_from_append_le d _ _ p.1
        (fun q hq => (mem_filter_lt hq).2.le), hlast] at this
      exact this.symm
    have hGinc : keys_increasing (m'.filter (fun q => decide (p.1 ≤ q.1))) :=
      List.Pairwise.sublist (List.filter_sublist _) hm'
    have hGlen : (m'.filter (fun q => decide (p.1 ≤ q.1))).length ≤ m'.length :=
      List.length_filter_le _ _
    have hGmem : ∀ q ∈ m'.filter (fun q => decide (p.1 ≤ q.1)), p.1 ≤ q.1 :=
      fun q hq => (mem_filter_ge hq).2
    generalize m'.filter (fun q => decide (p.1 ≤ q.1)) = G at hsplit hG hGinc hGlen hGmem
    cases G with
    | nil => exact absurd hG.symm hpd
    | cons g B =>
      have hgge : p.1 ≤ g.1 := hGmem g (List.mem_cons_self _ _)
      have hgle : ¬ p.1 < g.1 := by
        intro hc
        simp only [lookup_from, hc, if_true] at hG
        exact hpd hG.symm
      have hgeq : g.1 = p.1 := le_antisymm (not_lt.mp hgle) hgge
      have hB := List.pairwise_cons.mp hGinc
      have hBgt : ∀ q ∈ B, p.1 < q.1 := fun q hq => hgeq ▸ hB.1 q hq
      have hg2 : g.2 = p.2 := by
        simp only [lookup_from, hgle, if_false] at hG
        rw [lookup_from_of_gt g.2 B p.1 hBgt] at hG
        exact hG
      have heq' : ∀ k, lookup_from p.2 s' k = lookup_from p.2 B k := by
        intro k
        by_cases hk : k < p.1
        · rw [lookup_from_of_gt _ s' k (fun q hq => lt_trans hk (hs'.1 q hq)),
            lookup_from_of_gt _ B k (fun q hq => lt_trans hk (hBgt q hq))]
        · have := heq k
          rw [← hsplit] at this
          have hAB : m'.filter (fun q => decide (q.1 < p.1)) ++ g :: B =
              (m'.filter (fun q => decide (q.1 < p.1)) ++ [g]) ++ B := by simp
          rw [hAB, lookup_from_append_le, last_val_append_cons] at this
          · simp only [lookup_from, hk, if_false, last_val] at this
            rw [hg2] at this
            exact this
          · intro q hq
            rcases List.mem_append.mp hq with hq | hq
            · exact le_trans (mem_filter_lt hq).2.le (not_lt.mp hk)
            · simp at hq
              rw [hq, hgeq]
              exact not_lt.mp hk
      have hhead' : ∀ q, s'.head? = some q → q.2 ≠ p.2 :=
        fun q hq => fun hc => List.Chain'.rel_head? hchain hq hc.symm
      have hlen := ih p.2 B hs'.2 hB.2 hhead' (List.Chain'.tail hchain) heq'
      simp only [List.length_cons] at hGlen ⊢
      omega

/-- When the adjacent values differ, the list is at most one entry longer than any other
sorted list representing the same function. -/
theorem length_le_succ_of_same_lookup (s : List (K × V)) (d : V) (m' : List (K × V))
    (hs : keys_increasing s) (hm' : keys_increasing m') (hchain : no_adjacent_equal s)
    (heq : ∀ k, lookup_from d s k = lookup_from d m' k) : s.length ≤ m'.length + 1 := by
  cases s with
  | nil => simp
  | cons p s' =>
    by_cases hpd : p.2 = d
    · have hs' := List.pairwise_cons.mp hs
      have heq' : ∀ k, lookup_from d s' k = lookup_from d m' k := by
        intro k
        rw [← heq k]
        by_cases hk : k < p.1
        · simp only [lookup_from, hk, if_true]
          exact lookup_from_of_gt _ s' k (fun q hq => lt_trans hk (hs'.1 q hq))
        · simp only [lookup_from, hk, if_false, hpd]
      have hhead' : ∀ q, s'.head? = some q → q.2 ≠ d :=
        fun q hq => fun hc => List.Chain'.rel_head? hchain hq (by rw [hpd, hc])
      have := length_le_of_same_lookup s' d m' hs'.2 hm' hhead' (List.Chain'.tail hchain) heq'
      simp only [List.length_cons]
      omega
    · have := length_le_of_same_lookup (p :: s') d m' hs hm'
        (fun q hq => by cases hq; exact hpd) hchain heq
      omega

theorem lookup_after_default_assign (k : Int) :
    (⟨'A', []⟩ : interval_map Int Char).lookup k =
      ((interval_map.new 'A' : interval_map Int Char).run_assigns [(0, 10, 'A')]).lookup k := by
  have h : (interval_map.new 'A' : interval_map Int Char).run_assigns [(0, 10, 'A')] =
      ⟨'A', [(0, 'A')]⟩ := by rfl
  rw [h, lookup_eq, lookup_eq]
  simp [lookup_from]

/-- C5, refuted as stated: with default `'A'`, after the single call `assign(0,10,'A')`
the container stores one boundary, while the empty boundary map represents the same
lookup function with no boundary at all. -/
theorem representation_not_minimal :
    keys_increasing ([] : List (Int × Char)) ∧
    (∀ k : Int, (⟨'A', []⟩ : interval_map Int Char).lookup k =
      ((interval_map.new 'A' : interval_map Int Char).run_assigns [(0, 10, 'A')]).lookup k) ∧
    ¬ (((interval_map.new 'A' : interval_map Int Char).run_assigns
        [(0, 10, 'A')]).get_map.length ≤ ([] : List (Int × Char)).length) :=
  ⟨List.Pairwise.nil, lookup_after_default_assign, by decide⟩

/-- C5, amended: for every state `s` reached from a newly constructed container with
default `V0` by a sequence of `assign` calls, and every boundary map `m'` with strictly
increasing keys that with the same `V0` represents the same lookup function, `s` stores
at most one boundary more than `m'`, and no more than `m'` whenever the first boundary
stored in `s` has a value different from `V0`. -/
theorem representation_almost_minimal (v0 : V) (cs : List (K × K × V)) (m' : List (K × V))
    (hm' : keys_increasing m')
    (heq : ∀ k, (⟨v0, m'⟩ : interval_map K V).lookup k =
      ((interval_map.new v0 : interval_map K V).run_assigns cs).lookup k) :
    ((interval_map.new v0 : interval_map K V).run_assigns cs).get_map.length ≤ m'.length + 1 ∧
    ((∀ p, ((interval_map.new v0 : interval_map K V).run_assigns cs).get_map.head? = some p →
        p.2 ≠ v0) →
      ((interval_map.new v0 : interval_map K V).run_assigns cs).get_map.length ≤ m'.length) := by
  have hinc : keys_increasing ((interval_map.new v0 : interval_map K V).run_assigns cs).m_map := by
    rw [run_assigns_eq_run]
    exact keys_increasing_run _ _ List.Pairwise.nil
  have hchain : no_adjacent_equal
      ((interval_map.new v0 : interval_map K V).run_assigns cs).m_map := by
    rw [run_assigns_eq_run]
    exact no_adjacent_equal_run _ _ List.chain'_nil
  have hval : ((interval_map.new v0 : interval_map K V).run_assigns cs).m_valBegin = v0 := by
    rw [run_assigns_eq_run, valBegin_run]
    rfl
  have heq' : ∀ k, lookup_from v0
      ((interval_map.new v0 : interval_map K V).run_assigns cs).m_map k =
      lookup_from v0 m' k := by
    intro k
    have := heq k
    rw [lookup_eq, lookup_eq, hval] at this
    exact this.symm
  exact ⟨length_le_succ_of_same_lookup _ v0 m' hinc hm' hchain heq',
    fun hhead => length_le_of_same_lookup _ v0 m' hinc hm' hhead hchain heq'⟩

/-- Witness for the amended C5: default `'A'`, the call `assign(0,10,'A')`, compared with
the empty boundary map. -/
theorem representation_almost_minimal_witness :
    ((interval_map.new 'A' : interval_map Int Char).run_assigns [(0, 10, 'A')]).get_map.length
      ≤ ([] : List (Int × Char)).length + 1 :=
  (representation_almost_minimal 'A' [((0 : Int), 10, 'A')] [] List.Pairwise.nil
    lookup_after_default_assign).1

/-! ## Reassigning the default value -/

/-- C10, refuted as stated: with default `'A'`, after `assign(0,10,'B')` and
`assign(0,10,'A')` the boundary enumeration is not empty, it holds the boundary
`(0,'A')`. -/
theorem reassign_default_keeps_boundary :
    (((interval_map.new 'A' : interval_map Int Char).assign 0 10 'B').assign 0 10 'A').get_map
        = [(0, 'A')] ∧
      (((interval_map.new 'A' : interval_map Int Char).assign 0 10 'B').assign 0 10 'A').get_map
        ≠ [] := by
  decide

/-- C10, amended: for every default `V0`, all keys `b < e` and every value `v`, starting
from a newly constructed container, `assign(b, e, v)` followed by `assign(b, e, V0)` leaves
the boundary enumeration with the single boundary `(b, V0)`, and every lookup returns
`V0`. -/
theorem reassign_default_single_boundary (v0 : V) (b e : K) (v : V) (hbe : b < e) :
    (((interval_map.new v0 : interval_map K V).assign b e v).assign b e v0).get_map
        = [(b, v0)] ∧
      ∀ k, (((interval_map.new v0 : interval_map K V).assign b e v).assign b e v0).lookup k
        = v0 := by
  have hnew : keys_increasing (interval_map.new v0 : interval_map K V).m_map :=
    List.Pairwise.nil
  have hs1 := keys_increasing_assign (interval_map.new v0 : interval_map K V) b e v hnew
  have hva : ((interval_map.new v0 : interval_map K V).assign b e v).lookup e = v0 :=
    lookup_assign_outside (interval_map.new v0 : interval_map K V) b e v e hnew
      (Or.inr le_rfl)
  have hmap : ((interval_map.new v0 : interval_map K V).assign b e v).m_map =
      canonicalize ([] ++ (b, v) :: (e, v0) :: []) := by
    rw [assign_eq _ b e v hnew hbe]
    rfl
  have hfinal : ((interval_map.new v0 : interval_map K V).assign b e v).assign b e v0 =
      ⟨v0, [(b, v0)]⟩ := by
    rw [assign_eq _ b e v0 hs1 hbe, hva, hmap,
      filter_lt_canonicalize_raw b e v v0 [] [] hbe (by simp) (by simp),
      filter_gt_canonicalize_raw b e v v0 [] [] hbe (by simp) (by simp),
      valBegin_assign]
    simp [canonicalize, canonicalize_loop, interval_map.new]
  rw [hfinal]
  refine ⟨rfl, ?_⟩
  intro k
  rw [lookup_eq]
  simp [lookup_from]

/-- Witness for the amended C10: default `'A'`, `assign(0,10,'B')` then `assign(0,10,'A')`. -/
theorem reassign_default_single_boundary_witness :
    (((interval_map.new 'A' : interval_map Int Char).assign 0 10 'B').assign 0 10 'A').get_map
      = [(0, 'A')] :=
  (reassign_default_single_boundary 'A' (0 : Int) 10 'B' (by decide)).1

/-! ## Touching ranges -/

theorem assign_fresh (v0 v : V) (b c : K) (hv : v ≠ v0) (hbc : b < c) :
    (interval_map.new v0 : interval_map K V).assign b c v = ⟨v0, [(b, v), (c, v0)]⟩ := by
  rw [assign_eq (interval_map.new v0) b c v List.Pairwise.nil hbc, lookup_eq]
  simp [interval_map.new, lookup_from, canonicalize, canonicalize_loop, Ne.symm hv]

theorem assign_touching (v0 v : V) (b c e : K) (hv : v ≠ v0) (hbc : b < c) (hce : c < e) :
    ((interval_map.new v0 : interval_map K V).assign b c v).assign c e v =
      ⟨v0, [(b, v), (e, v0)]⟩ := by
  have hinc : keys_increasing [(b, v), (c, v0)] := by
    simp [keys_increasing, hbc]
  rw [assign_fresh v0 v b c hv hbc, assign_eq _ c e v hinc hce, lookup_eq]
  simp [lookup_from, List.filter_cons, hbc, hce, not_lt.mpr hce.le, lt_irrefl,
    not_lt.mpr (lt_trans hbc hce).le, canonicalize, canonicalize_loop, Ne.symm hv]

/-- C11. Touching ranges with the same value merge: for every default `V0`, every value
`v` different from `V0` and all keys `b < m < e`, starting from a newly constructed
container, `assign(b, m, v)` followed by `assign(m, e, v)` leaves a boundary enumeration
with exactly the two entries `(b, v)` and `(e, V0)`. -/
theorem touching_ranges_merge (v0 v : V) (b c e : K) (hv : v ≠ v0) (hbc : b < c)
    (hce : c < e) :
    (((interval_map.new v0 : interval_map K V).assign b c v).assign c e v).get_map =
      [(b, v), (e, v0)] := by
  rw [assign_touching v0 v b c e hv hbc hce]
  rfl

/-- Witness for C11: default `'A'`, `assign(0,5,'B')` then `assign(5,10,'B')` gives
`(0,'B'), (10,'A')`. -/
theorem touching_ranges_merge_witness :
    (((interval_map.new 'A' : interval_map Int Char).assign 0 5 'B').assign 5 10 'B').get_map =
      [(0, 'B'), (10, 'A')] :=
  touching_ranges_merge 'A' 'B' (0 : Int) 5 10 (by decide) (by decide) (by decide)

/-! ## Values returned by lookup -/

theorem lookup_from_mem (d : V) (m : List (K × V)) (k : K) :
    lookup_from d m k = d ∨ ∃ p ∈ m, lookup_from d m k = p.2 := by
  induction m generalizing d with
  | nil => exact Or.inl rfl
  | cons a rest ih =>
    by_cases h : k < a.1
    · simp [lookup_from, h]
    · simp only [lookup_from, h, if_false]
      rcases ih a.2 with h1 | ⟨p, hp, h1⟩
      · exact Or.inr ⟨a, List.mem_cons_self _ _, h1⟩
      · exact Or.inr ⟨p, List.mem_cons_of_mem _ hp, h1⟩

theorem values_run_assigns (v0 : V) (cs : List (K × K × V)) :
    ∀ (s : interval_map K V) (vals : List V), keys_increasing s.m_map →
      (∀ p ∈ s.m_map, p.2 = s.m_valBegin ∨ p.2 ∈ vals) →
      ∀ p ∈ (s.run_assigns cs).m_map,
        p.2 = s.m_valBegin ∨ p.2 ∈ vals ∨ ∃ c ∈ cs, p.2 = c.2.2 := by
  induction cs with
  | nil =>
    intro s vals _ h p hp
    rcases h p hp with h | h
    · exact Or.inl h
    · exact Or.inr (Or.inl h)
  | cons c cs ih =>
    intro s vals hs h p hp
    simp only [interval_map.run_assigns, List.foldl_cons] at hp
    have hstep : ∀ q ∈ (s.assign c.1 c.2.1 c.2.2).m_map,
        q.2 = (s.assign c.1 c.2.1 c.2.2).m_valBegin ∨ q.2 ∈ c.2.2 :: vals := by
      intro q hq
      rw [valBegin_assign]
      by_cases hbe : c.1 < c.2.1
      · rw [assign_eq s _ _ _ hs hbe] at hq
        have hq' := mem_canonicalize hq
        simp only [List.mem_append, List.mem_cons] at hq'
        rcases hq' with hq' | rfl | rfl | hq'
        · rcases h q (mem_filter_lt hq').1 with h1 | h1
          · exact Or.inl h1
          · exact Or.inr (List.mem_cons_of_mem _ h1)
        · exact Or.inr (List.mem_cons_self _ _)
        · rw [lookup_eq]
          rcases lookup_from_mem s.m_valBegin s.m_map c.2.1 with h1 | ⟨r, hr, h1⟩
          · exact Or.inl h1
          · simp only
            rw [h1]
            rcases h r hr with h2 | h2
            · exact Or.inl h2
            · exact Or.inr (List.mem_cons_of_mem _ h2)
        · rcases h q (mem_filter_gt hq').1 with h1 | h1
          · exact Or.inl h1
          · exact Or.inr (List.mem_cons_of_mem _ h1)
      · rw [assign_invalid s _ _ _ hbe] at hq
        rcases h q hq with h1 | h1
        · exact Or.inl h1
        · exact Or.inr (List.mem_cons_of_mem _ h1)
    have := ih (s.assign c.1 c.2.1 c.2.2) (c.2.2 :: vals)
      (keys_increasing_assign s _ _ _ hs) hstep p hp
    rw [valBegin_assign] at this
    rcases this with h1 | h1 | ⟨d, hd, h1⟩
    · exact Or.inl h1
    · rcases List.mem_cons.mp h1 with h2 | h2
      · exact Or.inr (Or.inr ⟨c, List.mem_cons_self _ _, h2⟩)
      · exact Or.inr (Or.inl h2)
    · exact Or.inr (Or.inr ⟨d, List.mem_cons_of_mem _ hd, h1⟩)

theorem valBegin_run_assigns (v0 : V) (cs : List (K × K × V)) :
    ((interval_map.new v0 : interval_map K V).run_assigns cs).m_valBegin = v0 := by
  rw [run_assigns_eq_run, valBegin_run]
  rfl

theorem lookup_run_assigns (v0 : V) (cs : List (K × K × V)) (k : K) :
    ((interval_map.new v0 : interval_map K V).run_assigns cs).lookup k = v0 ∨
      ∃ c ∈ cs, ((interval_map.new v0 : interval_map K V).run_assigns cs).lookup k = c.2.2 := by
  rw [lookup_eq, valBegin_run_assigns]
  rcases lookup_from_mem v0 ((interval_map.new v0 : interval_map K V).run_assigns cs).m_map k
    with h | ⟨p, hp, h⟩
  · exact Or.inl h
  · rw [h]
    have := values_run_assigns v0 cs (interval_map.new v0) [] List.Pairwise.nil
      (by simp [interval_map.new]) p hp
    rcases this with h1 | h1 | h1
    · exact Or.inl h1
    · simp at h1
    · exact Or.inr h1

/-- C12. Lookup only returns the default or an assigned value: for every default `V0`,
every finite sequence of `assign` calls applied to a newly constructed container and every
key `k`, `operator[](k)` on the resulting state is `V0` or the value argument of one of the
calls; in the test's instance (default `'A'`, assigned values in `'B'..'U'`) every lookup
lies in `'A'..'Z'`. -/
theorem lookup_default_or_assigned (v0 : V) (cs : List (K × K × V)) (k : K) :
    (((interval_map.new v0 : interval_map K V).run_assigns cs).lookup k = v0 ∨
      ∃ c ∈ cs, ((interval_map.new v0 : interval_map K V).run_assigns cs).lookup k = c.2.2) ∧
    (∀ (ds : List (Int × Int × Char)) (j : Int),
      (∀ c ∈ ds, 'B' ≤ c.2.2 ∧ c.2.2 ≤ 'U') →
      'A' ≤ ((interval_map.new 'A' : interval_map Int Char).run_assigns ds).lookup j ∧
        ((interval_map.new 'A' : interval_map Int Char).run_assigns ds).lookup j ≤ 'Z') := by
  refine ⟨lookup_run_assigns v0 cs k, ?_⟩
  intro ds j hds
  rcases lookup_run_assigns 'A' ds j with h | ⟨c, hc, h⟩
  · rw [h]
    decide
  · rw [h]
    exact ⟨le_trans (by decide) (hds c hc).1, le_trans (hds c hc).2 (by decide)⟩

/-- Witness for C12: default `'A'`, calls `assign(1,5,'B')`, `assign(3,7,'C')`, looked up
at `4`. -/
theorem lookup_default_or_assigned_witness :
    'A' ≤ ((interval_map.new 'A' : interval_map Int Char).run_assigns
        [(1, 5, 'B'), (3, 7, 'C')]).lookup 4 ∧
      ((interval_map.new 'A' : interval_map Int Char).run_assigns
        [(1, 5, 'B'), (3, 7, 'C')]).lookup 4 ≤ 'Z' :=
  (lookup_default_or_assigned 'A' [((1 : Int), 5, 'B'), (3, 7, 'C')] 4).2
    [(1, 5, 'B'), (3, 7, 'C')] 4 (by decide)

/-- C13. The sentinel default is never mutated: `get_begin_value()` after `assign(b, e, v)`
and after `clear()` equals `get_begin_value()` before the call, so in every state reached
from `new(v0)` by `assign` and `clear` calls the default equals `v0`. -/
theorem default_never_mutated :
    (∀ (s : interval_map K V) (b e : K) (v : V),
      (s.assign b e v).get_begin_value = s.get_begin_value) ∧
    (∀ s : interval_map K V, s.clear.get_begin_value = s.get_begin_value) ∧
    (∀ (v0 : V) (cs : List (Call K V)),
      ((interval_map.new v0 : interval_map K V).run cs).get_begin_value = v0) :=
  ⟨fun s b e v => valBegin_assign s b e v, fun _ => rfl,
    fun v0 cs => valBegin_run cs (interval_map.new v0)⟩

/-! ## The memory efficiency loop -/

theorem memory_loop_step (i : Int) (hi : 0 < i) :
    ((⟨'A', [(0, 'B'), (i + 2, 'A')]⟩ : interval_map Int Char).assign i (i + 2) 'B').assign
        (i + 1) (i + 3) 'B' = ⟨'A', [(0, 'B'), (i + 3, 'A')]⟩ := by
  have h1 : i < i + 2 := by omega
  have h2 : ¬ i + 2 < i := by omega
  have h3 : ¬ i + 2 < 0 := by omega
  have h4 : (0 : Int) < i + 2 := by omega
  have h5 : i + 1 < i + 3 := by omega
  have h6 : (0 : Int) < i + 1 := by omega
  have h7 : ¬ i + 2 < i + 1 := by omega
  have h8 : ¬ i + 3 < 0 := by omega
  have h9 : ¬ i + 3 < i + 2 := by omega
  have hinc : keys_increasing ([(0, 'B'), (i + 2, 'A')] : List (Int × Char)) := by
    simp [keys_increasing, h4]
  have hfirst : (⟨'A', [(0, 'B'), (i + 2, 'A')]⟩ : interval_map Int Char).assign i (i + 2) 'B'
      = ⟨'A', [(0, 'B'), (i + 2, 'A')]⟩ := by
    rw [assign_eq _ i (i + 2) 'B' hinc h1, lookup_eq]
    simp [lookup_from, List.filter_cons, hi, h2, h3, canonicalize, canonicalize_loop]
  rw [hfirst, assign_eq _ (i + 1) (i + 3) 'B' hinc h5, lookup_eq]
  simp [lookup_from, List.filter_cons, h6, h7, h8, h9, canonicalize, canonicalize_loop]

theorem int_add_eq (a b : Int) (h0 : -2147483648 ≤ a + b) (h1 : a + b ≤ 2147483647) :
    int_add a b = a + b := by
  unfold int_add
  omega

theorem foldl_range_succ {S : Type} (f : S → Nat → S) (a : S) (n : Nat) :
    (List.range (n + 1)).foldl f a = f ((List.range n).foldl f a) n := by
  rw [List.range_succ, List.foldl_append]
  rfl

theorem memory_loop_unfold (n : Nat) :
    test_memory_efficiency_loop (n + 1) =
      ((test_memory_efficiency_loop n).assign (n : Int) (int_add (n : Int) 2) 'B').assign
        (int_add (n : Int) 1) (int_add (n : Int) 3) 'B' :=
  foldl_range_succ _ _ n

theorem memory_loop_succ (n : Nat) (hn : (n : Int) + 3 ≤ 2147483647) :
    test_memory_efficiency_loop (n + 1) = ⟨'A', [(0, 'B'), ((n : Int) + 3, 'A')]⟩ := by
  induction n with
  | zero => rfl
  | succ n ih =>
    have hn' : (n : Int) + 3 ≤ 2147483647 := by push_cast at hn; omega
    have hpos : (0 : Int) ≤ ((n + 1 : Nat) : Int) := Int.natCast_nonneg _
    rw [memory_loop_unfold (n + 1), ih hn',
      int_add_eq _ 1 (by omega) (by omega), int_add_eq _ 2 (by omega) (by omega),
      int_add_eq _ 3 (by omega) (by omega)]
    have hcast : ((n : Int) + 3) = ((n + 1 : Nat) : Int) + 2 := by push_cast; ring
    rw [hcast]
    exact memory_loop_step ((n + 1 : Nat) : Int) (by push_cast; omega)

theorem memory_loop_at_overflow :
    test_memory_efficiency_loop 2147483646 = ⟨'A', [(0, 'B'), (2147483647, 'A')]⟩ := by
  have h1 := memory_loop_succ 2147483644 (by norm_num)
  have h2 := memory_loop_unfold 2147483645
  have e1 : (2147483644 + 1 : Nat) = 2147483645 := by norm_num
  have e2 : (2147483645 + 1 : Nat) = 2147483646 := by norm_num
  rw [e1] at h1
  rw [e2, h1] at h2
  rw [h2]
  have e3 : ((2147483644 : Nat) : Int) + 3 = 2147483647 := by norm_num
  have e4 : ((2147483645 : Nat) : Int) = 2147483645 := by norm_num
  rw [e3, e4]
  rfl

/-- C14, refuted as stated: in `int` arithmetic the claim fails at `n = 2147483646`
(`INT_MAX - 1`). In the last iteration `i + 3` overflows, the call
`assign(i + 1, i + 3, 'B')` has an inverted range and does nothing, and the final boundary
map is `(0,'B'), (2147483647,'A')`, not `(0,'B'), (n + 2,'A')`. -/
theorem memory_loop_overflow :
    (test_memory_efficiency_loop 2147483646).get_map = [(0, 'B'), (2147483647, 'A')] ∧
      (test_memory_efficiency_loop 2147483646).get_map ≠
        [(0, 'B'), (((2147483646 : Nat) : Int) + 2, 'A')] ∧
      (test_memory_efficiency_loop 2147483646).get_map ≠
        [(0, 'B'), (int_add ((2147483646 : Nat) : Int) 2, 'A')] := by
  rw [memory_loop_at_overflow]
  refine ⟨rfl, ?_, ?_⟩ <;> decide

/-- C14, amended: for every `n >= 1` with `n + 2 <= 2147483647` (so that no sum overflows
`int`), starting from a newly constructed `interval_map<int,char>` with default `'A'` and
executing, for `i = 0 .. n-1` in order, `assign(i, i+2, 'B')` then `assign(i+1, i+3, 'B')`,
the final boundary map is exactly `(0,'B'), (n+2,'A')`, of size 2. -/
theorem memory_loop_two_boundaries (n : Nat) (hn : 1 ≤ n)
    (hmax : (n : Int) + 2 ≤ 2147483647) :
    (test_memory_efficiency_loop n).get_map = [(0, 'B'), ((n : Int) + 2, 'A')] ∧
      (test_memory_efficiency_loop n).get_map.length = 2 := by
  obtain ⟨k, rfl⟩ : ∃ k, n = k + 1 := ⟨n - 1, by omega⟩
  rw [memory_loop_succ k (by push_cast at hmax; omega)]
  have hcast : (((k + 1 : Nat) : Int) + 2) = (k : Int) + 3 := by push_cast; ring
  rw [hcast]
  exact ⟨rfl, rfl⟩

/-- Witness for the amended C14: the test's `NUM_OPERATIONS = 1000`, whose final size `2`
passes the assertion `final_size < NUM_OPERATIONS / 2`. -/
theorem memory_loop_two_boundaries_witness :
    (test_memory_efficiency_loop 1000).get_map.length < 1000 / 2 := by
  rw [(memory_loop_two_boundaries 1000 (by decide) (by decide)).2]
  decide

/-! ## Key order -/

/-- C15. Boundary keys stay strictly increasing: in every state reached from a newly
constructed container by any sequence of `assign` and `clear` calls, the boundary
enumeration has strictly increasing keys, hence no duplicate key. -/
theorem keys_stay_increasing (v0 : V) (cs : List (Call K V)) :
    keys_increasing ((interval_map.new v0 : interval_map K V).run cs).get_map ∧
      (((interval_map.new v0 : interval_map K V).run cs).get_map.map Prod.fst).Nodup := by
  have h : keys_increasing ((interval_map.new v0 : interval_map K V).run cs).m_map :=
    keys_increasing_run cs (interval_map.new v0) List.Pairwise.nil
  refine ⟨h, ?_⟩
  unfold List.Nodup
  rw [List.pairwise_map]
  exact List.Pairwise.imp (fun hlt => ne_of_lt hlt) h

/-! ## Extending an interval -/

theorem length_assign_extend (s : interval_map K V) (A B : List (K × V)) (p q : K × V)
    (b e : K) (v : V) (hs : keys_increasing s.m_map) (hm : s.m_map = A ++ p :: q :: B)
    (hq : q.1 = b) (hp : p.2 = v) (hbe : b < e) :
    (s.assign b e v).m_map.length ≤ s.m_map.length := by
  rw [assign_eq s b e v hs hbe]
  simp only
  unfold keys_increasing at hs
  rw [hm, List.pairwise_append, List.pairwise_cons, List.pairwise_cons] at hs
  obtain ⟨hA, ⟨hpq, hqB, hB⟩, hAx⟩ := hs
  have hpb : p.1 < b := hq ▸ hpq q (List.mem_cons_self _ _)
  have hAb : ∀ a ∈ A, a.1 < b :=
    fun a ha => hq ▸ hAx a ha q (List.mem_cons_of_mem _ (List.mem_cons_self _ _))
  have hBb : ∀ x ∈ B, b < x.1 := fun x hx => hq ▸ hqB x hx
  have hL : (A ++ p :: q :: B).filter (fun x => decide (x.1 < b)) = A ++ [p] := by
    rw [List.filter_append, filter_lt_self b A hAb]
    simp [List.filter_cons, hpb, hq, filter_lt_nil b B (fun x hx => not_lt.mpr (hBb x hx).le)]
  have hR : ((A ++ p :: q :: B).filter (fun x => decide (e < x.1))).length ≤ B.length := by
    rw [List.filter_append,
      filter_gt_nil e A (fun a ha => not_lt.mpr (lt_trans (hAb a ha) hbe).le)]
    simp only [List.filter_cons, not_lt.mpr (lt_trans hpb hbe).le, hq, not_lt.mpr hbe.le,
      decide_False, Bool.false_eq_true, if_false, List.nil_append]
    exact List.length_filter_le _ _
  rw [hm, hL]
  generalize (A ++ p :: q :: B).filter (fun x => decide (e < x.1)) = R at hR
  have hX : A ++ [p] ++ (b, v) :: (e, s.lookup e) :: R =
      A ++ p :: ((b, v) :: (e, s.lookup e) :: R) := by simp
  rw [hX, canonicalize_append_cons]
  have hdrop : canonicalize_loop p.2 ((b, v) :: (e, s.lookup e) :: R) =
      canonicalize_loop p.2 ((e, s.lookup e) :: R) := by
    simp [canonicalize_loop, hp]
  rw [hdrop]
  have h1 := (canonicalize_sublist (A ++ [p])).length_le
  have h2 := (canonicalize_loop_sublist p.2 ((e, s.lookup e) :: R)).length_le
  simp only [List.length_append, List.length_cons, List.length_nil] at h1 h2 ⊢
  omega

/-- C16. Extending an interval with its own value does not grow the map: for every state
reached from a newly constructed container by `assign` calls, every stored boundary key
`b` whose stored predecessor boundary holds the value `v`, and every `e > b`, the number
of stored boundaries after `assign(b, e, v)` is at most the number before the call. -/
theorem extend_does_not_grow (v0 : V) (cs : List (K × K × V)) (A B : List (K × V))
    (p q : K × V) (b e : K) (v : V)
    (hm : ((interval_map.new v0 : interval_map K V).run_assigns cs).get_map =
      A ++ p :: q :: B)
    (hq : q.1 = b) (hp : p.2 = v) (hbe : b < e) :
    ((((interval_map.new v0 : interval_map K V).run_assigns cs).assign b e v).get_map).length ≤
      ((interval_map.new v0 : interval_map K V).run_assigns cs).get_map.length := by
  have hinc : keys_increasing ((interval_map.new v0 : interval_map K V).run_assigns cs).m_map := by
    rw [run_assigns_eq_run]
    exact keys_increasing_run _ _ List.Pairwise.nil
  exact length_assign_extend _ A B p q b e v hinc hm hq hp hbe

/-- Witness for C16: after `assign(1,5,'B')`, `assign(5,10,'C')`, `assign(10,15,'C')` the map
is `(1,'B'), (5,'C'), (15,'A')`, and `assign(15,20,'C')` does not increase its size. -/
theorem extend_does_not_grow_witness :
    ((((interval_map.new 'A' : interval_map Int Char).run_assigns
        [(1, 5, 'B'), (5, 10, 'C'), (10, 15, 'C')]).assign 15 20 'C').get_map).length ≤
      ((interval_map.new 'A' : interval_map Int Char).run_assigns
        [(1, 5, 'B'), (5, 10, 'C'), (10, 15, 'C')]).get_map.length :=
  extend_does_not_grow 'A' [((1 : Int), 5, 'B'), (5, 10, 'C'), (10, 15, 'C')]
    [(1, 'B')] [] (5, 'C') (15, 'A') 15 20 'C' (by decide) (by decide) (by decide) (by decide)

/-! ## Canonical maps are left alone by canonicalization -/

theorem canonicalize_loop_eq_self (pv : V) (m : List (K × V))
    (hhead : ∀ p, m.head? = some p → p.2 ≠ pv) (hc : no_adjacent_equal m) :
    canonicalize_loop pv m = m := by
  induction m generalizing pv with
  | nil => rfl
  | cons a rest ih =>
    have ha : a.2 ≠ pv := hhead a rfl
    simp only [canonicalize_loop, ha, if_false]
    rw [ih a.2 (fun q hq => fun hcq => List.Chain'.rel_head? hc hq hcq.symm)
      (List.Chain'.tail hc)]

theorem canonicalize_eq_self (m : List (K × V)) (hc : no_adjacent_equal m) :
    canonicalize m = m := by
  cases m with
  | nil => rfl
  | cons a rest =>
    simp only [canonicalize]
    rw [canonicalize_loop_eq_self a.2 rest
      (fun q hq => fun hcq => List.Chain'.rel_head? hc hq hcq.symm) (List.Chain'.tail hc)]

theorem last_val_ne_of_chain (Le : List (K × V)) (d : V) (r : K × V) (R : List (K × V))
    (hc : no_adjacent_equal (Le ++ r :: R)) (hne : Le ≠ []) : last_val d Le ≠ r.2 := by
  induction Le generalizing d with
  | nil => exact absurd rfl hne
  | cons a rest ih =>
    cases rest with
    | nil =>
      simp only [last_val]
      have h : List.Chain' (fun x y : K × V => x.2 ≠ y.2) (a :: r :: R) := hc
      have h2 := List.Chain'.rel_head h
      exact h2
    | cons a2 rest2 =>
      simp only [last_val]
      have := ih a.2 (List.Chain'.tail hc) (by simp)
      simpa [last_val] using this

/-- Entries below `b` survive `assign(b, e, v)` when no two adjacent values are equal. -/
theorem mem_assign_of_lt (s : interval_map K V) (b e : K) (v : V)
    (hs : keys_increasing s.m_map) (hc : no_adjacent_equal s.m_map) (hbe : b < e)
    (p : K × V) (hp : p ∈ s.m_map) (hpb : p.1 < b) : p ∈ (s.assign b e v).m_map := by
  rw [assign_eq s b e v hs hbe]
  simp only
  have hsplit := filter_lt_append b s.m_map hs
  have hcL : no_adjacent_equal (s.m_map.filter (fun x => decide (x.1 < b))) := by
    rw [← hsplit] at hc
    exact List.Chain'.left_of_append hc
  have hpL : p ∈ s.m_map.filter (fun x => decide (x.1 < b)) := by
    simp [List.mem_filter, hp, hpb]
  generalize s.m_map.filter (fun x => decide (x.1 < b)) = L at hcL hpL ⊢
  cases L with
  | nil => cases hpL
  | cons a rest =>
    simp only [List.cons_append, canonicalize]
    rw [canonicalize_loop_append, canonicalize_loop_eq_self a.2 rest
      (fun q hq => fun hcq => List.Chain'.rel_head? hcL hq hcq.symm) (List.Chain'.tail hcL)]
    rcases List.mem_cons.mp hpL with h | h
    · rw [h]; exact List.mem_cons_self _ _
    · exact List.mem_cons_of_mem _ (List.mem_append_left _ h)

/-- Entries above `e` survive `assign(b, e, v)` when no two adjacent values are equal,
except a first entry that restates the default. -/
theorem mem_assign_of_gt (s : interval_map K V) (b e : K) (v : V)
    (hs : keys_increasing s.m_map) (hc : no_adjacent_equal s.m_map) (hbe : b < e)
    (p : K × V) (hp : p ∈ s.m_map) (hep : e < p.1)
    (hex : ¬ (s.m_map.head? = some p ∧ p.2 = s.m_valBegin)) :
    p ∈ (s.assign b e v).m_map := by
  rw [assign_eq s b e v hs hbe]
  simp only
  have hX : s.m_map.filter (fun x => decide (x.1 < b)) ++
      (b, v) :: (e, s.lookup e) :: s.m_map.filter (fun x => decide (e < x.1)) =
      (s.m_map.filter (fun x => decide (x.1 < b)) ++ [(b, v)]) ++
      (e, s.lookup e) :: s.m_map.filter (fun x => decide (e < x.1)) := by simp
  rw [hX, canonicalize_append_cons]
  apply List.mem_append_right
  have hsplit := filter_le_append e s.m_map hs
  have hva : s.lookup e = last_val s.m_valBegin (s.m_map.filter (fun x => decide (x.1 ≤ e))) := by
    rw [lookup_eq]
    exact lookup_from_eq_last_val _ _ e hs
  have hpR : p ∈ s.m_map.filter (fun x => decide (e < x.1)) := by
    simp [List.mem_filter, hp, hep]
  have hcR : no_adjacent_equal (s.m_map.filter (fun x => decide (e < x.1))) := by
    rw [← hsplit] at hc
    exact List.Chain'.right_of_append hc
  have hincR : keys_increasing (s.m_map.filter (fun x => decide (e < x.1))) :=
    List.Pairwise.sublist (List.filter_sublist _) hs
  simp only
  rw [hva]
  generalize s.m_map.filter (fun x => decide (e < x.1)) = R at hsplit hpR hcR hincR
  generalize s.m_map.filter (fun x => decide (x.1 ≤ e)) = Le at hsplit
  cases R with
  | nil => cases hpR
  | cons r R2 =>
    by_cases hr : r.2 = last_val s.m_valBegin Le
    · have hLe : Le = [] := by
        by_contra hne
        rw [← hsplit] at hc
        exact last_val_ne_of_chain Le s.m_valBegin r R2 hc hne hr.symm
      rw [hLe] at hsplit hr
      simp only [List.nil_append] at hsplit
      simp only [last_val] at hr
      have hpr : p ≠ r := by
        intro hpr
        apply hex
        rw [← hsplit, hpr]
        exact ⟨rfl, hr⟩
      have hpR2 : p ∈ R2 := by
        rcases List.mem_cons.mp hpR with h | h
        · exact absurd h hpr
        · exact h
      rw [hLe]
      simp only [canonicalize_loop, last_val, hr, if_true]
      rw [canonicalize_loop_eq_self s.m_valBegin R2
        (fun q hq => fun hcq => List.Chain'.rel_head? hcR hq (by rw [hr, hcq]))
        (List.Chain'.tail hcR)]
      exact hpR2
    · rw [canonicalize_loop_eq_self _ (r :: R2)
        (fun q hq => by cases hq; exact hr) hcR]
      exact hpR

/-- C17, refuted as stated: with default `'A'`, after `assign(5,10,'A')` the map holds the
boundary `(5,'A')`; the call `assign(0,3,'B')` drops it although its key `5` lies outside
`[0,3]`. -/
theorem canonicalization_not_local :
    ((5, 'A') : Int × Char) ∈
        ((interval_map.new 'A' : interval_map Int Char).run [Call.assign 5 10 'A']).get_map ∧
      ((5 : Int) < 0 ∨ (3 : Int) < 5) ∧
      ((5, 'A') : Int × Char) ∉
        (((interval_map.new 'A' : interval_map Int Char).run [Call.assign 5 10 'A']).assign
          0 3 'B').get_map := by
  decide

/-- C17, amended: for every state reached from a newly constructed container with default
`V0` by any sequence of `assign` and `clear` calls, and every `b < e` and `v`, every
boundary `(key, value)` stored before `assign(b, e, v)` whose key lies outside the closed
range `[b, e]` is still stored, with the same value, after the call, unless it is the
first stored boundary, lies above `e` and holds the value `V0`. -/
theorem canonicalization_local (v0 : V) (cs : List (Call K V)) (b e : K) (v : V)
    (hbe : b < e) (p : K × V)
    (hp : p ∈ ((interval_map.new v0 : interval_map K V).run cs).get_map)
    (hout : p.1 < b ∨ e < p.1)
    (hex : ¬ (((interval_map.new v0 : interval_map K V).run cs).get_map.head? = some p ∧
      e < p.1 ∧ p.2 = v0)) :
    p ∈ (((interval_map.new v0 : interval_map K V).run cs).assign b e v).get_map := by
  have hinc : keys_increasing ((interval_map.new v0 : interval_map K V).run cs).m_map :=
    keys_increasing_run cs (interval_map.new v0) List.Pairwise.nil
  have hc : no_adjacent_equal ((interval_map.new v0 : interval_map K V).run cs).m_map :=
    no_adjacent_equal_run cs (interval_map.new v0) List.chain'_nil
  have hval : ((interval_map.new v0 : interval_map K V).run cs).m_valBegin = v0 :=
    valBegin_run cs (interval_map.new v0)
  rcases hout with hlt | hgt
  · exact mem_assign_of_lt _ b e v hinc hc hbe p hp hlt
  · apply mem_assign_of_gt _ b e v hinc hc hbe p hp hgt
    rw [hval]
    intro h
    exact hex ⟨h.1, hgt, h.2⟩

/-- Witness for the amended C17: default `'A'`, after `assign(1,5,'B')` the boundary
`(5,'A')` lies above the range of `assign(0,3,'C')` and is not the first boundary. -/
theorem canonicalization_local_witness :
    ((5, 'A') : Int × Char) ∈
      (((interval_map.new 'A' : interval_map Int Char).run [Call.assign 1 5 'B']).assign
        0 3 'C').get_map :=
  canonicalization_local 'A' [Call.assign (1 : Int) 5 'B'] 0 3 'C' (by decide) (5, 'A')
    (by decide) (by decide) (by decide)

/-! ## Interior boundaries and canonicalization -/

/-- C18. Interior boundaries are removed: in a state whose boundary map has strictly
increasing keys, for all `b < e` and `v`, after `assign(b, e, v)` the boundary map
contains no key `k` with `b < k < e`. -/
theorem no_interior_boundaries (s : interval_map K V) (b e : K) (v : V)
    (hs : keys_increasing s.m_map) (hbe : b < e) :
    ∀ p ∈ (s.assign b e v).get_map, ¬ (b < p.1 ∧ p.1 < e) := by
  intro p hp
  rw [assign_eq s b e v hs hbe] at hp
  have hp' := mem_canonicalize hp
  simp only [List.mem_append, List.mem_cons] at hp'
  rintro ⟨h1, h2⟩
  rcases hp' with h | rfl | rfl | h
  · exact absurd (mem_filter_lt h).2 (not_lt.mpr h1.le)
  · exact lt_irrefl _ h1
  · exact lt_irrefl _ h2
  · exact absurd (mem_filter_gt h).2 (not_lt.mpr h2.le)

/-- Witness for C18: `assign(2,8,'C')` on the map `(0,'B'), (3,'D'), (5,'E'), (10,'A')`
leaves no boundary with a key strictly between `2` and `8`. -/
theorem no_interior_boundaries_witness :
    ((⟨'A', [(0, 'B'), (3, 'D'), (5, 'E'), (10, 'A')]⟩ :
        interval_map Int Char).assign 2 8 'C').get_map.filter
      (fun p => decide ((2 : Int) < p.1 ∧ p.1 < 8)) = [] :=
  List.filter_eq_nil_iff.mpr (fun p hp => by
    simpa using no_interior_boundaries (⟨'A', [(0, 'B'), (3, 'D'), (5, 'E'), (10, 'A')]⟩ :
      interval_map Int Char) 2 8 'C' (by decide) (by decide) p hp)

/-- C19. Canonicalization does not change the represented function: for every default
`V0`, every boundary map `m` with strictly increasing keys and every key `k`,
`operator[](k)` on `canonicalize(m)` equals `operator[](k)` on `m`; the first boundary is
always kept. -/
theorem canonicalize_preserves_lookup (v0 : V) (m : List (K × V)) (k : K)
    (hm : keys_increasing m) :
    (⟨v0, canonicalize m⟩ : interval_map K V).lookup k = (⟨v0, m⟩ : interval_map K V).lookup k ∧
      (canonicalize m).head? = m.head? := by
  refine ⟨?_, head?_canonicalize m⟩
  rw [lookup_eq, lookup_eq]
  exact lookup_from_canonicalize v0 m k hm

/-- Witness for C19: the map `(0,'A'), (3,'A'), (5,'B'), (7,'B')` with default `'A'`,
looked up at `6`. -/
theorem canonicalize_preserves_lookup_witness :
    (⟨'A', canonicalize [(0, 'A'), (3, 'A'), (5, 'B'), (7, 'B')]⟩ :
        interval_map Int Char).lookup 6 =
      (⟨'A', [(0, 'A'), (3, 'A'), (5, 'B'), (7, 'B')]⟩ : interval_map Int Char).lookup 6 :=
  (canonicalize_preserves_lookup 'A' [((0 : Int), 'A'), (3, 'A'), (5, 'B'), (7, 'B')] 6
    (by decide)).1

/-! ## Splitting an assignment -/

theorem filter_lt_canonicalize_loop (c : K) (pv : V) (Y : List (K × V))
    (hY : keys_increasing Y) :
    (canonicalize_loop pv Y).filter (fun p => decide (p.1 < c)) =
      canonicalize_loop pv (Y.filter (fun p => decide (p.1 < c))) := by
  induction Y generalizing pv with
  | nil => rfl
  | cons a rest ih =>
    have hs := List.pairwise_cons.mp hY
    by_cases hac : a.1 < c
    · by_cases h : a.2 = pv
      · simp only [canonicalize_loop, h, if_true, List.filter_cons, hac, decide_True]
        exact ih pv hs.2
      · simp only [canonicalize_loop, h, if_false, List.filter_cons, hac, decide_True, if_true]
        rw [ih a.2 hs.2]
    · have hall : ∀ q ∈ a :: rest, ¬ q.1 < c := by
        intro q hq
        rcases List.mem_cons.mp hq with rfl | hq
        · exact hac
        · exact not_lt.mpr (le_trans (not_lt.mp hac) (hs.1 q hq).le)
      rw [filter_lt_nil c (a :: rest) hall,
        filter_lt_nil c _ (fun q hq => hall q (mem_canonicalize_loop hq))]
      rfl

theorem filter_lt_canonicalize (c : K) (Y : List (K × V)) (hY : keys_increasing Y) :
    (canonicalize Y).filter (fun p => decide (p.1 < c)) =
      canonicalize (Y.filter (fun p => decide (p.1 < c))) := by
  cases Y with
  | nil => rfl
  | cons a rest =>
    have hs := List.pairwise_cons.mp hY
    by_cases hac : a.1 < c
    · simp only [canonicalize, List.filter_cons, hac, decide_True, if_true]
      rw [filter_lt_canonicalize_loop c a.2 rest hs.2]
    · have hall : ∀ q ∈ a :: rest, ¬ q.1 < c := by
        intro q hq
        rcases List.mem_cons.mp hq with rfl | hq
        · exact hac
        · exact not_lt.mpr (le_trans (not_lt.mp hac) (hs.1 q hq).le)
      rw [filter_lt_nil c (a :: rest) hall,
        filter_lt_nil c _ (fun q hq => hall q (mem_canonicalize hq))]
      rfl

theorem filter_gt_canonicalize_loop (e : K) (pv : V) (Y : List (K × V))
    (hY : keys_increasing Y) :
    (canonicalize_loop pv Y).filter (fun p => decide (e < p.1)) =
      canonicalize_loop (lookup_from pv Y e) (Y.filter (fun p => decide (e < p.1))) := by
  induction Y generalizing pv with
  | nil => rfl
  | cons a rest ih =>
    have hs := List.pairwise_cons.mp hY
    by_cases hea : e < a.1
    · have hall : ∀ q ∈ a :: rest, e < q.1 := by
        intro q hq
        rcases List.mem_cons.mp hq with rfl | hq
        · exact hea
        · exact lt_trans hea (hs.1 q hq)
      rw [filter_gt_self e (a :: rest) hall,
        filter_gt_self e _ (fun q hq => hall q (mem_canonicalize_loop hq))]
      simp only [lookup_from, hea, if_true]
    · by_cases h : a.2 = pv
      · simp only [canonicalize_loop, h, if_true, List.filter_cons, hea, decide_False,
          Bool.false_eq_true, if_false, lookup_from]
        rw [ih pv hs.2]
      · simp only [canonicalize_loop, h, if_false, List.filter_cons, hea, decide_False,
          Bool.false_eq_true, lookup_from]
        exact ih a.2 hs.2

theorem filter_gt_canonicalize (e : K) (d : V) (Y : List (K × V)) (hY : keys_increasing Y)
    (hlow : ∃ p ∈ Y, p.1 ≤ e) :
    (canonicalize Y).filter (fun p => decide (e < p.1)) =
      canonicalize_loop (lookup_from d Y e) (Y.filter (fun p => decide (e < p.1))) := by
  cases Y with
  | nil =>
    obtain ⟨p, hp, _⟩ := hlow
    cases hp
  | cons a rest =>
    have hs := List.pairwise_cons.mp hY
    have hea : ¬ e < a.1 := by
      obtain ⟨p, hp, hpe⟩ := hlow
      rcases List.mem_cons.mp hp with rfl | hp
      · exact not_lt.mpr hpe
      · exact not_lt.mpr (le_trans (hs.1 p hp).le hpe)
    simp only [canonicalize, List.filter_cons, hea, decide_False, Bool.false_eq_true, if_false,
      lookup_from]
    exact filter_gt_canonicalize_loop e a.2 rest hs.2

theorem filter_gt_filter_gt (c e : K) (m : List (K × V)) (hce : c < e) :
    (m.filter (fun p => decide (c < p.1))).filter (fun p => decide (e < p.1)) =
      m.filter (fun p => decide (e < p.1)) := by
  rw [List.filter_filter]
  apply List.filter_congr
  intro x _
  by_cases h : e < x.1
  · simp [h, lt_trans hce h]
  · simp [h]

theorem canonicalize_loop_cons_idem (v va : V) (e : K) (R : List (K × V)) :
    canonicalize_loop v ((e, va) :: canonicalize_loop va R) =
      canonicalize_loop v ((e, va) :: R) := by
  by_cases h : va = v
  · simp only [canonicalize_loop, h, if_true]
    exact canonicalize_loop_idem v R
  · simp only [canonicalize_loop, h, if_false]
    rw [canonicalize_loop_idem]

theorem assign_split (s : interval_map K V) (b c e : K) (v : V)
    (hs : keys_increasing s.m_map) (hbc : b < c) (hce : c < e) :
    (s.assign b c v).assign c e v = s.assign b e v := by
  have hbe : b < e := lt_trans hbc hce
  have hs1 := keys_increasing_assign s b c v hs
  have hva : (s.assign b c v).lookup e = s.lookup e :=
    lookup_assign_outside s b c v e hs (Or.inr hce.le)
  have hraw := keys_increasing_raw s.m_map b c (s.lookup c) v hs hbc
  have hlook : lookup_from s.m_valBegin (s.m_map.filter (fun p => decide (p.1 < b)) ++
      (b, v) :: (c, s.lookup c) :: s.m_map.filter (fun p => decide (c < p.1))) e =
      s.lookup e := by
    rw [← lookup_assign s b c v e hs hbc]
    exact hva
  have hLb : ∀ q ∈ s.m_map.filter (fun p => decide (p.1 < b)), q.1 < b :=
    fun q hq => (mem_filter_lt hq).2
  have hfl : (s.m_map.filter (fun p => decide (p.1 < b)) ++
      (b, v) :: (c, s.lookup c) :: s.m_map.filter (fun p => decide (c < p.1))).filter
        (fun p => decide (p.1 < c)) = s.m_map.filter (fun p => decide (p.1 < b)) ++ [(b, v)] := by
    rw [List.filter_append,
      filter_lt_self c _ (fun q hq => lt_trans (hLb q hq) hbc)]
    simp [List.filter_cons, hbc,
      filter_lt_nil c (s.m_map.filter (fun p => decide (c < p.1)))
        (fun q hq => not_lt.mpr (mem_filter_gt hq).2.le)]
  have hfg : (s.m_map.filter (fun p => decide (p.1 < b)) ++
      (b, v) :: (c, s.lookup c) :: s.m_map.filter (fun p => decide (c < p.1))).filter
        (fun p => decide (e < p.1)) = s.m_map.filter (fun p => decide (e < p.1)) := by
    rw [List.filter_append,
      filter_gt_nil e _ (fun q hq => not_lt.mpr (lt_trans (hLb q hq) hbe).le)]
    simp [List.filter_cons, not_lt.mpr hbe.le, not_lt.mpr hce.le,
      filter_gt_filter_gt c e s.m_map hce]
  rw [assign_eq (s.assign b c v) c e v hs1 hce, hva, assign_eq s b c v hs hbc,
    assign_eq s b e v hs hbe]
  simp only
  rw [filter_lt_canonicalize c _ hraw, hfl,
    filter_gt_canonicalize e s.m_valBegin _ hraw
      ⟨(b, v), by simp, hbe.le⟩, hfg, hlook,
    canonicalize_canonicalize_append]
  congr 1
  have h1 : ∀ T : List (K × V), s.m_map.filter (fun p => decide (p.1 < b)) ++ [(b, v)] ++ T =
      s.m_map.filter (fun p => decide (p.1 < b)) ++ (b, v) :: T := by
    intro T; simp
  rw [h1, canonicalize_append_cons, canonicalize_append_cons _ (_ :: _)]
  congr 1
  have hdrop : canonicalize_loop (b, v).2
      ((c, v) :: (e, s.lookup e) ::
        canonicalize_loop (s.lookup e) (s.m_map.filter (fun p => decide (e < p.1)))) =
      canonicalize_loop v ((e, s.lookup e) ::
        canonicalize_loop (s.lookup e) (s.m_map.filter (fun p => decide (e < p.1)))) := by
    simp [canonicalize_loop]
  rw [hdrop, canonicalize_loop_cons_idem]

/-- C20. Splitting an assignment is equivalent to the whole assignment: in a state whose
boundary map has strictly increasing keys, for all keys `b < m < e` and every value `v`,
`assign(b, m, v)` followed by `assign(m, e, v)` yields exactly the same boundary map (and
default) as the single call `assign(b, e, v)`. -/
theorem split_assign_eq_whole (s : interval_map K V) (b c e : K) (v : V)
    (hs : keys_increasing s.m_map) (hbc : b < c) (hce : c < e) :
    ((s.assign b c v).assign c e v).get_map = (s.assign b e v).get_map ∧
      (s.assign b c v).assign c e v = s.assign b e v := by
  rw [assign_split s b c e v hs hbc hce]
  exact ⟨rfl, rfl⟩

/-- Witness for C20: on the map `(0,'B'), (3,'D'), (5,'E'), (10,'A')` with default `'A'`,
`assign(2,4,'C')` then `assign(4,8,'C')` against `assign(2,8,'C')`. -/
theorem split_assign_eq_whole_witness :
    (((⟨'A', [(0, 'B'), (3, 'D'), (5, 'E'), (10, 'A')]⟩ : interval_map Int Char).assign
        2 4 'C').assign 4 8 'C').get_map =
      ((⟨'A', [(0, 'B'), (3, 'D'), (5, 'E'), (10, 'A')]⟩ : interval_map Int Char).assign
        2 8 'C').get_map :=
  (split_assign_eq_whole (⟨'A', [(0, 'B'), (3, 'D'), (5, 'E'), (10, 'A')]⟩ :
    interval_map Int Char) 2 4 8 'C' (by decide) (by decide) (by decide)).1

/-! ## Growth of the boundary map -/

theorem length_assign_le (s : interval_map K V) (b e : K) (v : V)
    (hs : keys_increasing s.m_map) :
    (s.assign b e v).m_map.length ≤ s.m_map.length + 2 := by
  by_cases hbe : b < e
  · rw [assign_eq s b e v hs hbe]
    simp only
    have hcanon := (canonicalize_sublist (s.m_map.filter (fun p => decide (p.1 < b)) ++
      (b, v) :: (e, s.lookup e) :: s.m_map.filter (fun p => decide (e < p.1)))).length_le
    have hsplit := congrArg List.length (filter_lt_append b s.m_map hs)
    have hR : (s.m_map.filter (fun p => decide (e < p.1))).length ≤
        (s.m_map.filter (fun p => decide (b ≤ p.1))).length := by
      apply List.Sublist.length_le
      apply List.monotone_filter_right
      intro p hp
      have : e < p.1 := by simpa using hp
      simpa using (lt_trans hbe this).le
    simp only [List.length_append, List.length_cons] at hcanon hsplit
    omega
  · rw [assign_invalid s b e v hbe]
    omega

theorem length_run_assigns_le (cs : List (K × K × V)) (s : interval_map K V)
    (hs : keys_increasing s.m_map) :
    (s.run_assigns cs).m_map.length ≤ s.m_map.length + 2 * cs.length := by
  induction cs generalizing s with
  | nil => simp [interval_map.run_assigns]
  | cons c cs ih =>
    simp only [interval_map.run_assigns, List.foldl_cons, List.length_cons]
    have h1 := ih (s.assign c.1 c.2.1 c.2.2) (keys_increasing_assign s _ _ _ hs)
    have h2 := length_assign_le s c.1 c.2.1 c.2.2 hs
    simp only [interval_map.run_assigns] at h1
    omega

/-- C21. One `assign` adds at most two boundaries: in a state whose boundary map has
strictly increasing keys, for all `b`, `e`, `v` the number of stored boundaries after
`assign(b, e, v)` is at most the number before the call plus 2; consequently after any
sequence of `n` `assign` calls on a newly constructed container the boundary map has at
most `2n` entries. -/
theorem assign_adds_at_most_two (s : interval_map K V) (b e : K) (v : V)
    (hs : keys_increasing s.m_map) :
    (s.assign b e v).get_map.length ≤ s.get_map.length + 2 ∧
      ∀ (v0 : V) (cs : List (K × K × V)),
        ((interval_map.new v0 : interval_map K V).run_assigns cs).get_map.length ≤
          2 * cs.length := by
  refine ⟨length_assign_le s b e v hs, ?_⟩
  intro v0 cs
  have := length_run_assigns_le cs (interval_map.new v0 : interval_map K V) List.Pairwise.nil
  simpa [interval_map.new, interval_map.get_map] using this

/-- Witness for C21: `assign(2,4,'C')` on the map `(0,'B'), (10,'A')` with default `'A'` adds
the two boundaries `(2,'C')` and `(4,'B')`. -/
theorem assign_adds_at_most_two_witness :
    ((⟨'A', [(0, 'B'), (10, 'A')]⟩ : interval_map Int Char).assign 2 4 'C').get_map.length ≤
      (⟨'A', [(0, 'B'), (10, 'A')]⟩ : interval_map Int Char).get_map.length + 2 :=
  (assign_adds_at_most_two (⟨'A', [(0, 'B'), (10, 'A')]⟩ : interval_map Int Char) 2 4 'C'
    (by decide)).1

/-! ## Fixed point of canonicalization -/

theorem canonicalize_idem (m : List (K × V)) :
    canonicalize (canonicalize m) = canonicalize m :=
  canonicalize_eq_self _ (no_adjacent_equal_canonicalize m)

/-- C22. `canonicalize` reaches a fixed point in one pass: for every boundary map `m` with
strictly increasing keys, `canonicalize(m)` has no two adjacent entries with equal values,
`canonicalize(canonicalize(m)) = canonicalize(m)`, and `canonicalize(m) = m` whenever `m`
already has no two adjacent entries with equal values. -/
theorem canonicalize_fixed_point (m : List (K × V)) (hm : keys_increasing m) :
    no_adjacent_equal (canonicalize m) ∧
      canonicalize (canonicalize m) = canonicalize m ∧
      (no_adjacent_equal m → canonicalize m = m) :=
  ⟨no_adjacent_equal_canonicalize m, canonicalize_idem m, canonicalize_eq_self m⟩

/-- Witness for C22: the map `(0,'A'), (3,'A'), (5,'B'), (7,'B'), (9,'A')` is canonicalized
to `(0,'A'), (5,'B'), (9,'A')`, which a second pass leaves unchanged. -/
theorem canonicalize_fixed_point_witness :
    canonicalize (canonicalize [((0 : Int), 'A'), (3, 'A'), (5, 'B'), (7, 'B'), (9, 'A')]) =
      canonicalize [((0 : Int), 'A'), (3, 'A'), (5, 'B'), (7, 'B'), (9, 'A')] :=
  (canonicalize_fixed_point [((0 : Int), 'A'), (3, 'A'), (5, 'B'), (7, 'B'), (9, 'A')]
    (by decide)).2.1

end IntervalMap
